import Mathlib

/-!
# IRMA card: selective-disclosure proving and terminal authentication

A shallow embedding of `src/src/crypto_proving.c` and `src/src/authentication.c`.

Big numbers held in fixed-size byte arrays are represented by their big-endian value
(a `Nat`); `crypto_compute_vPrime`, whose point is the byte-level arithmetic, is
embedded over byte lists.  Constants of the absent `defs_sizes.h` are parameters.
-/

namespace IrmaCard

/-! ## Status words -/

/-- The two status words the embedded functions hand to `ReturnSW` / `APDU_ReturnSW`. -/
inductive StatusWord where
  | SW_WRONG_DATA
  | SW_SECURITY_STATUS_NOT_SATISFIED
  deriving DecidableEq, Repr

/-- The name `crypto_proving.c` uses for the wrong-data status word. -/
abbrev ISO7816_SW_WRONG_DATA : StatusWord := StatusWord.SW_WRONG_DATA

/-! ## Data model -/

/-- The fields of `credential->signature` that the code reads. -/
structure CLSignature where
  A : Nat
  e : Nat
  v : Nat

/-- The fields of `credential->issuerKey` that the code reads; `S` is the base
`crypto_modexp_special` raises. -/
structure IssuerKey where
  n : Nat
  S : Nat
  R : Nat → Nat

/-- The object `credential` points to. -/
structure Credential where
  size : Nat
  signature : CLSignature
  issuerKey : IssuerKey
  attributes : Nat → Nat

/-- A location a helper of `constructProof` reads or writes. -/
inductive Loc where
  | mHat (i : Nat)
  | eHat
  | vHat
  | rA
  | APrime
  | number0
  | number1
  | A
  | R (i : Nat)
  deriving DecidableEq, Repr

/-- One helper call made by `constructProof`, with the locations it is handed. -/
inductive Call where
  | generate_random (dst : Loc) (length : Nat)
  | modexp_special (exponent result buffer : Loc)
  | modexp (exponent base result : Loc)
  | modmul (x y : Loc)
  | compute_hash (list : List (Nat × Nat))
  | compute_eHat
  | compute_vPrime
  | compute_vHat
  | compute_mHat (i : Nat)
  deriving DecidableEq, Repr

/-- The state `selectAttributes` and `constructProof` work on: `session.prove` and
`public.prove`.  The members of the union `public.prove.buffer` are kept as separate
fields (`number0`, `number1`, `data`); `list` holds, for each entry of
`public.prove.list`, the value its `data` pointer designates and its `size`.
`drawn` counts the calls of `crypto_generate_random` and `trace` lists the helper
calls made so far, oldest first. -/
structure ProofSession where
  disclose : Nat
  mHat : Nat → Nat
  eHat : Nat
  vHat : Nat
  rA : Nat
  APrime : Nat
  number0 : Nat
  number1 : Nat
  data : List (Fin 256)
  context : Nat
  nonce : Nat
  challenge : Nat
  list : List (Nat × Nat)
  drawn : Nat
  trace : List Call

/-! ## `selectAttributes` -/

/-- The values of the loop variable of `selectAttributes`:
`for (i = 1; i < 0x8000; i = i << 1)`. -/
def selectAttributes_probes : List Nat :=
  (List.iterate (fun i => i <<< 1) 1 16).takeWhile (fun i => decide (i < 0x8000))

/-- The test `(selection & i != 0) && (i == 0 || i > credential->size)`; in C
`!=` binds tighter than `&`, so the left conjunct is `selection & (i != 0)`. -/
def selectAttributes_invalid (credential : Credential) (selection i : Nat) : Bool :=
  ((selection &&& (if i != 0 then 1 else 0)) != 0) &&
    (i == 0 || decide (i > credential.size))

/-- The loop of `selectAttributes` over the remaining values of `i`: `some sw` when
`ReturnSW(sw)` ends the call, `none` when the loop runs to its end. -/
def selectAttributes_loop (credential : Credential) (selection : Nat) :
    List Nat → Option StatusWord
  | [] => none
  | i :: rest =>
    if selectAttributes_invalid credential selection i then
      some ISO7816_SW_WRONG_DATA
    else
      selectAttributes_loop credential selection rest

/-- The function `selectAttributes(selection)`: the status word handed to `ReturnSW` (`none` when
the function returns normally) and the session state the call leaves. -/
def selectAttributes (credential : Credential) (selection : Nat)
    (session : ProofSession) : Option StatusWord × ProofSession :=
  match selectAttributes_loop credential selection selectAttributes_probes with
  | some sw => (some sw, session)
  | none => (none, { session with disclose := selection })

/-! ## `authentication.c` -/

/-- A byte of card memory. -/
abbrev Byte := Fin 256

/-- The fields of a `TLV` that `authentication_verifyCertificate` reads; the pointer
`tlv.value` is held as its distance from `cert`. -/
structure TLV where
  tag : Nat
  length : Int
  value : Nat

/-- The type of `ASN1_decode_tlv(&tlv, cert, &offset)`, a function of the absent
`ASN1.c`: from the bytes at `cert` and the offset it yields the decoded `tlv` and the
new offset. -/
abbrev Decoder := List Byte → Nat → TLV × Nat

/-- The type of `RSA_PSS_verify(key, body_bytes, body, signature_bytes, signature)`, a
function of the absent `RSA.c`; the pointers `body` and `signature` are distances from
`cert`, whose bytes are the last argument. -/
abbrev Verifier (Key : Type) := Key → Int → Nat → Int → Nat → List Byte → Int

/-- The function `authentication_verifyCertificate(key, cert)`: `APDU_ReturnSW(sw)` ends the call
with `sw`; otherwise the pointer `body` is returned (as its distance from `cert`). -/
def authentication_verifyCertificate {Key : Type} (ASN1_decode_tlv : Decoder)
    (RSA_PSS_verify : Verifier Key) (key : Key) (cert : List Byte) :
    Except StatusWord Nat :=
  let offset := 0
  let (tlv, _) := ASN1_decode_tlv cert offset
  if tlv.tag != 0x7F21 then
    Except.error StatusWord.SW_WRONG_DATA
  else
    let body := tlv.value
    let offset := tlv.value
    let (tlv, offset) := ASN1_decode_tlv cert offset
    if tlv.tag != 0x7F4E then
      Except.error StatusWord.SW_WRONG_DATA
    else
      let body_bytes : Int := (offset : Int) - (body : Int)
      let (tlv, _) := ASN1_decode_tlv cert offset
      if tlv.tag != 0x5F37 then
        Except.error StatusWord.SW_WRONG_DATA
      else
        let signature_bytes := tlv.length
        let signature := tlv.value
        if RSA_PSS_verify key body_bytes body signature_bytes signature cert < 0 then
          Except.error StatusWord.SW_SECURITY_STATUS_NOT_SATISFIED
        else
          Except.ok body

/-- Modelled from the spec: `NotEqual(size, buffer1, buffer2)` of the absent `utils.c`,
the fixed-length comparison; it is nonzero exactly when the two buffers differ in one
of their first `size` bytes. -/
def NotEqual (size : Nat) (buffer1 buffer2 : Nat → Byte) : Bool :=
  (List.range size).any (fun i => buffer1 i != buffer2 i)

/-- The function `authentication_authenticateTerminal(response, nonce)`; the two pointers are given
by the bytes found from them on. `AUTH_CHALLENGE_BYTES` is a constant of the absent
`authentication.h`. -/
def authentication_authenticateTerminal (AUTH_CHALLENGE_BYTES : Nat)
    (response nonce : Nat → Byte) : Except StatusWord Unit :=
  if NotEqual AUTH_CHALLENGE_BYTES response nonce then
    Except.error StatusWord.SW_WRONG_DATA
  else
    Except.ok ()

/-- The assumption on `ASN1_decode_tlv`: `tlv.value` points behind the header of the
element that starts at the offset, `tlv.length` is the number of value bytes, and the
offset is advanced past the element. -/
def advancesPastElement (ASN1_decode_tlv : Decoder) : Prop :=
  ∀ (cert : List Byte) (offset : Nat),
    offset ≤ (ASN1_decode_tlv cert offset).1.value ∧
    0 ≤ (ASN1_decode_tlv cert offset).1.length ∧
    ((ASN1_decode_tlv cert offset).2 : Int)
      = ((ASN1_decode_tlv cert offset).1.value : Int) + (ASN1_decode_tlv cert offset).1.length

/-- The bytes a pointer and a length handed to `RSA_PSS_verify` designate: `bytes`
bytes of the memory at `cert` from the distance `pointer` on. -/
def designated (cert : List Byte) (pointer : Nat) (bytes : Int) : List Byte :=
  (cert.drop pointer).take bytes.toNat

/-! ## Byte blocks and the MULTOS primitives used by `crypto_compute_vPrime` -/

/-- The unsigned value of a block of bytes, most significant byte first. -/
def ofBytes (block : List Byte) : Nat :=
  block.foldl (fun acc b => acc * 256 + b.val) 0

/-- The `len` least significant bytes of `x`, most significant byte first. -/
def toBytes : Nat → Nat → List Byte
  | 0, _ => []
  | len + 1, x => toBytes len (x / 256) ++ [⟨x % 256, Nat.mod_lt x (by decide)⟩]

/-- The `len` bytes of `mem` from address `addr` on. -/
def readBlock (mem : List Byte) (addr len : Nat) : List Byte :=
  (mem.drop addr).take len

/-- The memory `mem` with `block` written from address `addr` on. -/
def writeBlock (mem : List Byte) (addr : Nat) (block : List Byte) : List Byte :=
  mem.take addr ++ block ++ mem.drop (addr + block.length)

/-- The `len` bytes at the top of the stack; the stack grows at the end of the list. -/
def stackTop (stack : List Byte) (len : Nat) : List Byte :=
  stack.drop (stack.length - len)

/-- The stack without its `len` top bytes. -/
def stackPop (stack : List Byte) (len : Nat) : List Byte :=
  stack.take (stack.length - len)

/-- The part of the card `crypto_compute_vPrime` works on: `public.prove.buffer.data`,
the stack, the carry bit `C` of the condition code register and the variable `flag`. -/
structure Machine where
  buffer : List Byte
  stack : List Byte
  C : Bool
  flag : Nat

/-- The instruction `CLEARN addr, len`: zero `len` bytes of the buffer. -/
def CLEARN (m : Machine) (addr len : Nat) : Machine :=
  { m with buffer := writeBlock m.buffer addr (List.replicate len 0) }

/-- The instruction `PUSHZ len`: push `len` zero bytes. -/
def PUSHZ (m : Machine) (len : Nat) : Machine :=
  { m with stack := m.stack ++ List.replicate len 0 }

/-- The statement `__push(BLOCKCAST(len)(p))`: push the block `p` points to. -/
def push (m : Machine) (block : List Byte) : Machine :=
  { m with stack := m.stack ++ block }

/-- The primitive `PRIM_MULTIPLY` with length `len`: the two `len`-byte blocks at the
top of the stack are replaced by their `2 * len`-byte product. -/
def PRIM_MULTIPLY (m : Machine) (len : Nat) : Machine :=
  let op2 := stackTop m.stack len
  let op1 := stackTop (stackPop m.stack len) len
  { m with stack := stackPop m.stack (2 * len) ++ toBytes (2 * len) (ofBytes op1 * ofBytes op2) }

/-- The instruction `STORE addr, len`: pop `len` bytes into the buffer at `addr`. -/
def STORE (m : Machine) (addr len : Nat) : Machine :=
  { m with buffer := writeBlock m.buffer addr (stackTop m.stack len),
           stack := stackPop m.stack len }

/-- The instruction `ADDN addr, len`: add the `len` top bytes of the stack to the
`len`-byte block of the buffer at `addr`; `C` is the carry out. -/
def ADDN (m : Machine) (addr len : Nat) : Machine :=
  let sum := ofBytes (readBlock m.buffer addr len) + ofBytes (stackTop m.stack len)
  { m with buffer := writeBlock m.buffer addr (toBytes len sum),
           C := decide (256 ^ len ≤ sum) }

/-- The instruction `POPN len`: drop `len` bytes from the stack. -/
def POPN (m : Machine) (len : Nat) : Machine :=
  { m with stack := stackPop m.stack len }

/-- The `multosarith.h` operation `SUBN(N, RES, OP1, OP2)`: the `N`-byte block at `RES`
(an address of the buffer) becomes `OP1 - OP2` modulo `256 ^ N`; `C` is the borrow. -/
def SUBN (m : Machine) (N RES : Nat) (OP1 OP2 : List Byte) : Machine :=
  { m with buffer := writeBlock m.buffer RES (toBytes N (ofBytes OP1 + 256 ^ N - ofBytes OP2)),
           C := decide (ofBytes OP1 < ofBytes OP2) }

/-- The `multosccr.h` operation `CFlag(&flag)`: copy the carry bit into `flag`. -/
def CFlag (m : Machine) : Machine :=
  { m with flag := if m.C then 1 else 0 }

/-- The `multosarith.h` operation `INCN(N, OP)`: add one to the `N`-byte block of the
buffer at `OP`, modulo `256 ^ N`. -/
def INCN (m : Machine) (N OP : Nat) : Machine :=
  { m with buffer := writeBlock m.buffer OP (toBytes N (ofBytes (readBlock m.buffer OP N) + 1)) }

/-- Constants of the absent `defs_sizes.h`: the `LENGTH_` ones count bits, the `SIZE_`
ones bytes. -/
structure Sizes where
  LENGTH_E : Nat
  LENGTH_V : Nat
  LENGTH_M_ : Nat
  LENGTH_E_ : Nat
  LENGTH_V_ : Nat
  LENGTH_R_A : Nat
  LENGTH_EPRIME : Nat
  SIZE_N : Nat
  SIZE_H : Nat
  SIZE_STATZK : Nat
  SIZE_E : Nat
  SIZE_R_A : Nat
  SIZE_V : Nat

/-- Modelled from the spec: the bit lengths `LENGTH_E`, `LENGTH_R_A` and `LENGTH_V` of
the absent `defs_sizes.h`.  The spec has `rA` drawn "at a length shortened by a small
fixed margin (to guarantee the subsequent subtraction never underflows"; with `rA` of
`LENGTH_R_A - 7` bits that is: the product of a `LENGTH_E`-bit and a
`LENGTH_R_A - 7`-bit number stays below the top bit of a `LENGTH_V`-bit number. -/
def marginGuarantee (Z : Sizes) : Prop :=
  Z.LENGTH_E + (Z.LENGTH_R_A - 7) + 1 ≤ Z.LENGTH_V

/-! ## `crypto_compute_vPrime` -/

/-- The first half of `crypto_compute_vPrime`, up to `POPN`: the product `e * rA` is
built in the buffer from the two half-width products.  `e` and `rA` are the byte arrays
`credential->signature.e` and `public.prove.rA`. -/
def crypto_compute_vPrime_product (Z : Sizes) (e rA : List Byte) (m : Machine) : Machine :=
  -- Clear the buffer, to prevent garbage messing up the computation
  let m := CLEARN m 0 (Z.SIZE_V - Z.SIZE_R_A)
  -- Multiply e with least significant half of r_A
  let m := PUSHZ m (Z.SIZE_R_A / 2 - Z.SIZE_E)
  let m := push m (readBlock e 0 Z.SIZE_E)
  let m := push m (readBlock rA (Z.SIZE_R_A / 2) (Z.SIZE_R_A / 2))
  let m := PRIM_MULTIPLY m (Z.SIZE_R_A / 2)
  let m := STORE m (Z.SIZE_V - Z.SIZE_R_A) Z.SIZE_R_A
  -- Multiply e with most significant half of r_A
  let m := PUSHZ m (Z.SIZE_R_A / 2 - Z.SIZE_E)
  let m := push m (readBlock e 0 Z.SIZE_E)
  let m := push m (readBlock rA 0 (Z.SIZE_R_A / 2))
  let m := PRIM_MULTIPLY m (Z.SIZE_R_A / 2)
  -- Combine the two multiplications into a single result
  let m := ADDN m 0 (Z.SIZE_V - Z.SIZE_R_A / 2)
  POPN m Z.SIZE_R_A

/-- The second half of `crypto_compute_vPrime`: the product in the buffer is subtracted
from `v` (the byte array `credential->signature.v`), low half first. -/
def crypto_compute_vPrime_subtract (Z : Sizes) (v : List Byte) (m : Machine) : Machine :=
  -- Subtract (with carry) from v and store the result in v'
  let m := SUBN m (Z.SIZE_V / 2 + 1) (Z.SIZE_V / 2)
    (readBlock v (Z.SIZE_V / 2) (Z.SIZE_V / 2 + 1))
    (readBlock m.buffer (Z.SIZE_V / 2) (Z.SIZE_V / 2 + 1))
  let m := CFlag m
  let m := if m.flag != 0x00 then INCN m (Z.SIZE_V / 2) 0 else m
  SUBN m (Z.SIZE_V / 2) 0 (readBlock v 0 (Z.SIZE_V / 2)) (readBlock m.buffer 0 (Z.SIZE_V / 2))

/-- The second half of `crypto_compute_vPrime` up to the last `SUBN`: the low halves
are subtracted, the carry bit is read and the upper half is incremented on a borrow. -/
def crypto_compute_vPrime_borrow (Z : Sizes) (v : List Byte) (m : Machine) : Machine :=
  let m := SUBN m (Z.SIZE_V / 2 + 1) (Z.SIZE_V / 2)
    (readBlock v (Z.SIZE_V / 2) (Z.SIZE_V / 2 + 1))
    (readBlock m.buffer (Z.SIZE_V / 2) (Z.SIZE_V / 2 + 1))
  let m := CFlag m
  if m.flag != 0x00 then INCN m (Z.SIZE_V / 2) 0 else m

/-- The function `crypto_compute_vPrime()`: both halves in sequence. -/
def crypto_compute_vPrime (Z : Sizes) (e rA v : List Byte) (m : Machine) : Machine :=
  crypto_compute_vPrime_subtract Z v (crypto_compute_vPrime_product Z e rA m)

/-! ## `constructProof` -/

/-- What `constructProof` takes from the platform: the successive outputs of the random
source, the hash function behind `crypto_compute_hash`, what `crypto_modexp_special`
and `crypto_compute_hash` leave in the work buffer they are handed, and the content of
the stack when `crypto_compute_vPrime` is entered. -/
structure Platform where
  random : Nat → Nat
  hash : List (Nat × Nat) → Nat
  modexp_work : Nat → Nat
  hash_work : List (Nat × Nat) → List Byte → List Byte
  stack : List Byte

/-- Modelled from the spec: the macro `disclosed(i)` of an absent header, the bit `i`
of the disclosure mask (bits set = disclosed). -/
def disclosed (s : ProofSession) (i : Nat) : Nat :=
  (s.disclose >>> i) &&& 1

/-- The value found at a location. -/
def load (credential : Credential) (s : ProofSession) : Loc → Nat
  | Loc.mHat i => s.mHat i
  | Loc.eHat => s.eHat
  | Loc.vHat => s.vHat
  | Loc.rA => s.rA
  | Loc.APrime => s.APrime
  | Loc.number0 => s.number0
  | Loc.number1 => s.number1
  | Loc.A => credential.signature.A
  | Loc.R i => credential.issuerKey.R i

/-- The state with a value written to a location of `session.prove` or `public.prove`;
the credential is never a destination in `constructProof`. -/
def store (s : ProofSession) (dst : Loc) (x : Nat) : ProofSession :=
  match dst with
  | Loc.mHat i => { s with mHat := Function.update s.mHat i x }
  | Loc.eHat => { s with eHat := x }
  | Loc.vHat => { s with vHat := x }
  | Loc.rA => { s with rA := x }
  | Loc.APrime => { s with APrime := x }
  | Loc.number0 => { s with number0 := x }
  | Loc.number1 => { s with number1 := x }
  | Loc.A => s
  | Loc.R _ => s

/-- The state with one more helper call on its trace. -/
def logCall (s : ProofSession) (call : Call) : ProofSession :=
  { s with trace := s.trace ++ [call] }

/-- Modelled from the spec: `crypto_generate_random(dst, length)` of the absent
`crypto_helper.c` draws a value of `length` bits from the random source into `dst`. -/
def crypto_generate_random (P : Platform) (s : ProofSession) (dst : Loc) (length : Nat) :
    ProofSession :=
  let s := store s dst (P.random s.drawn % 2 ^ length)
  logCall { s with drawn := s.drawn + 1 } (Call.generate_random dst length)

/-- Modelled from the spec: `crypto_modexp_special(size, exponent, result, buffer)` of
the absent `crypto_helper.c` yields `S ^ exponent mod n` in `result`, with `buffer` as
its work space. -/
def crypto_modexp_special (P : Platform) (credential : Credential) (s : ProofSession)
    (exponent result buffer : Loc) : ProofSession :=
  let x := load credential s exponent
  let s := store s buffer (P.modexp_work x)
  let s := store s result (credential.issuerKey.S ^ x % credential.issuerKey.n)
  logCall s (Call.modexp_special exponent result buffer)

/-- Modelled from the spec: `crypto_modexp(exponent, modulus, base, result)` of the
absent `crypto_multos.h` yields `base ^ exponent mod modulus` in `result`. -/
def crypto_modexp (credential : Credential) (s : ProofSession) (exponent : Loc)
    (modulus : Nat) (base result : Loc) : ProofSession :=
  let s := store s result (load credential s base ^ load credential s exponent % modulus)
  logCall s (Call.modexp exponent base result)

/-- Modelled from the spec: `crypto_modmul(x, y, modulus)` of the absent
`crypto_multos.h` replaces `x` by `x * y mod modulus`. -/
def crypto_modmul (credential : Credential) (s : ProofSession) (x y : Loc)
    (modulus : Nat) : ProofSession :=
  let s := store s x (load credential s x * load credential s y % modulus)
  logCall s (Call.modmul x y)

/-- Modelled from the spec: `crypto_compute_hash(list, 4, challenge, buffer.data, _)`
of the absent `crypto_helper.c` hashes the listed slices into `apdu.challenge`, with
`buffer.data` as its work space. -/
def crypto_compute_hash (P : Platform) (s : ProofSession) : ProofSession :=
  logCall { s with challenge := P.hash s.list, data := P.hash_work s.list s.data }
    (Call.compute_hash s.list)

/-- Modelled from the spec: `crypto_compute_eHat()` of the absent `crypto_helper.c`,
`eHat = eHat~ + c·e'` with `e' = e − 2^(Le' − 1)`. -/
def crypto_compute_eHat (Z : Sizes) (credential : Credential) (s : ProofSession) :
    ProofSession :=
  let ePrime := credential.signature.e - 2 ^ (Z.LENGTH_EPRIME - 1)
  logCall { s with eHat := s.eHat + s.challenge * ePrime } Call.compute_eHat

/-- Modelled from the spec: `crypto_compute_vHat()` of the absent `crypto_helper.c`,
`vHat = vHat~ + c·v'`, with `v'` the `SIZE_V` bytes `crypto_compute_vPrime` left in
`buffer.data`. -/
def crypto_compute_vHat (Z : Sizes) (s : ProofSession) : ProofSession :=
  logCall { s with vHat := s.vHat + s.challenge * ofBytes (s.data.take Z.SIZE_V) }
    Call.compute_vHat

/-- Modelled from the spec: `crypto_compute_mHat(i)` of the absent `crypto_helper.c`,
`mHat[i] = mHat[i]~ + c·m[i]`. -/
def crypto_compute_mHat (credential : Credential) (s : ProofSession) (i : Nat) :
    ProofSession :=
  let x := s.mHat i + s.challenge * credential.attributes i
  logCall { s with mHat := Function.update s.mHat i x } (Call.compute_mHat i)

/-- The call `crypto_compute_vPrime()` as `constructProof` sees it: the byte arrays
`e`, `rA` and `v` hold the values of the fields, and `buffer.data` is rewritten. -/
def constructProof_vPrime (P : Platform) (Z : Sizes) (credential : Credential)
    (s : ProofSession) : ProofSession :=
  let m := crypto_compute_vPrime Z (toBytes Z.SIZE_E credential.signature.e)
    (toBytes Z.SIZE_R_A s.rA) (toBytes Z.SIZE_V credential.signature.v)
    ⟨s.data, P.stack, false, 0⟩
  logCall { s with data := m.buffer } Call.compute_vPrime

/-- Lines 62-75 of `constructProof`: generate random values for m~[i], e~, v~ and rA. -/
def constructProof_randomise (P : Platform) (Z : Sizes) (credential : Credential)
    (s : ProofSession) : ProofSession :=
  let s := (List.range (credential.size + 1)).foldl
    (fun s i =>
      if disclosed s i == 0 then crypto_generate_random P s (Loc.mHat i) Z.LENGTH_M_
      else s) s
  let s := crypto_generate_random P s Loc.eHat Z.LENGTH_E_
  let s := crypto_generate_random P s Loc.vHat Z.LENGTH_V_
  -- IMPORTANT: Correction to the length of rA to prevent negative values
  crypto_generate_random P s Loc.rA (Z.LENGTH_R_A - 7)

/-- Lines 77-82 of `constructProof`: compute A' = A S^r_A. -/
def constructProof_APrime (P : Platform) (credential : Credential) (s : ProofSession) :
    ProofSession :=
  let s := crypto_modexp_special P credential s Loc.rA Loc.APrime Loc.number0
  crypto_modmul credential s Loc.APrime Loc.A credential.issuerKey.n

/-- Lines 84-103 of `constructProof`: compute
ZTilde = A'^eTilde * S^vTilde * (R[i]^mHat[i] foreach i not in D). -/
def constructProof_ZTilde (P : Platform) (credential : Credential) (s : ProofSession) :
    ProofSession :=
  let s := crypto_modexp_special P credential s Loc.vHat Loc.number0 Loc.number1
  let s := crypto_modexp credential s Loc.eHat credential.issuerKey.n Loc.APrime Loc.number1
  let s := crypto_modmul credential s Loc.number0 Loc.number1 credential.issuerKey.n
  (List.range (credential.size + 1)).foldl
    (fun s i =>
      if disclosed s i == 0 then
        let s := crypto_modexp credential s (Loc.mHat i) credential.issuerKey.n (Loc.R i)
          Loc.number1
        crypto_modmul credential s Loc.number0 Loc.number1 credential.issuerKey.n
      else s) s

/-- Lines 105-120 of `constructProof`: compute challenge c = H(context | A' | ZTilde |
nonce). -/
def constructProof_challenge (P : Platform) (Z : Sizes) (s : ProofSession) : ProofSession :=
  let list := [(s.context, Z.SIZE_H), (s.APrime, Z.SIZE_N), (s.number0, Z.SIZE_N),
    (s.nonce, Z.SIZE_STATZK)]
  crypto_compute_hash P { s with list := list }

/-- Lines 122-144 of `constructProof`: compute the responses e^, v', v^ and m_i^. -/
def constructProof_responses (P : Platform) (Z : Sizes) (credential : Credential)
    (s : ProofSession) : ProofSession :=
  let s := crypto_compute_eHat Z credential s
  let s := constructProof_vPrime P Z credential s
  let s := crypto_compute_vHat Z s
  (List.range (credential.size + 1)).foldl
    (fun s i => if disclosed s i == 0 then crypto_compute_mHat credential s i else s) s

/-- The function `constructProof()`: its five steps in sequence. -/
def constructProof (P : Platform) (Z : Sizes) (credential : Credential)
    (s : ProofSession) : ProofSession :=
  let s := constructProof_randomise P Z credential s
  let s := constructProof_APrime P credential s
  let s := constructProof_ZTilde P credential s
  let s := constructProof_challenge P Z s
  constructProof_responses P Z credential s

/-- The indices `i` with `0 <= i <= credential->size` and `disclosed(i) == 0`, in
increasing order. -/
def undisclosed (credential : Credential) (s : ProofSession) : List Nat :=
  (List.range (credential.size + 1)).filter (fun i => disclosed s i == 0)

/-- The indices whose `mHat[i]` is handed to `crypto_generate_random`, in call order. -/
def randomisedIndices (trace : List Call) : List Nat :=
  trace.filterMap (fun call =>
    match call with
    | Call.generate_random (Loc.mHat i) _ => some i
    | _ => none)

/-- The indices whose term `R[i]^mHat[i]` is computed by `crypto_modexp`, in call order. -/
def commitmentIndices (trace : List Call) : List Nat :=
  trace.filterMap (fun call =>
    match call with
    | Call.modexp (Loc.mHat i) (Loc.R _) _ => some i
    | _ => none)

/-- The indices handed to `crypto_compute_mHat`, in call order. -/
def responseIndices (trace : List Call) : List Nat :=
  trace.filterMap (fun call =>
    match call with
    | Call.compute_mHat i => some i
    | _ => none)

/-- The helper calls one run of `constructProof` makes, oldest first. -/
def constructProof_calls (P : Platform) (Z : Sizes) (credential : Credential)
    (s : ProofSession) : List Call :=
  (constructProof P Z credential s).trace.drop s.trace.length

/-- The locations a helper call writes, as the models of the helpers have it: the
destination of `crypto_generate_random`, the result and the work buffer of
`crypto_modexp_special`, the result of `crypto_modexp`, the first operand of
`crypto_modmul`, and the response of a `crypto_compute_` helper. -/
def written : Call → List Loc
  | Call.generate_random dst _ => [dst]
  | Call.modexp_special _ result buffer => [result, buffer]
  | Call.modexp _ _ result => [result]
  | Call.modmul x _ => [x]
  | Call.compute_hash _ => []
  | Call.compute_eHat => [Loc.eHat]
  | Call.compute_vPrime => []
  | Call.compute_vHat => [Loc.vHat]
  | Call.compute_mHat i => [Loc.mHat i]

/-! ## Example inputs -/

/-- A platform whose random source yields 3, 4, 5, ... -/
def examplePlatform : Platform :=
  ⟨fun k => 3 + k, fun l => (l.map Prod.fst).sum % 7, fun _ => 99, fun _ d => d, [1, 2]⟩

/-- Sizes with a one-byte `e`, a two-byte `rA` and a three-byte `v`. -/
def exampleSizes : Sizes :=
  { LENGTH_E := 8, LENGTH_V := 24, LENGTH_M_ := 8, LENGTH_E_ := 8, LENGTH_V_ := 8,
    LENGTH_R_A := 16, LENGTH_EPRIME := 2, SIZE_N := 1, SIZE_H := 1, SIZE_STATZK := 1,
    SIZE_E := 1, SIZE_R_A := 2, SIZE_V := 3 }

/-- A credential with `size = 4`. -/
def exampleCredential : Credential :=
  ⟨4, ⟨5, 7, 0x500102⟩, ⟨101, 2, fun i => 3 + i⟩, fun i => 10 + i⟩

/-- A session whose disclosure field holds `0x06` from an earlier selection. -/
def exampleSession : ProofSession :=
  ⟨0x06, fun _ => 0, 0, 0, 0, 0, 0, 0, [9, 9, 9, 9], 11, 12, 0, [], 0, []⟩

/-- A decoder for elements with a two-byte tag and a one-byte length. -/
def exampleDecoder : Decoder := fun cert offset =>
  let byte := fun (k : Nat) => (cert.getD (offset + k) 0).val
  (⟨byte 0 * 256 + byte 1, byte 2, offset + 3⟩, offset + 3 + byte 2)

/-- A certificate `7F21 { 7F4E { AA BB } 5F37 { CC DD } }`. -/
def exampleCertificate : List Byte :=
  [0x7F, 0x21, 0x0A, 0x7F, 0x4E, 0x02, 0xAA, 0xBB, 0x5F, 0x37, 0x02, 0xCC, 0xDD]

/-- The same certificate with the tag of the body changed to `7F4F`. -/
def mistaggedCertificate : List Byte :=
  [0x7F, 0x21, 0x0A, 0x7F, 0x4F, 0x02, 0xAA, 0xBB, 0x5F, 0x37, 0x02, 0xCC, 0xDD]

/-- The example certificate with the last byte of the body changed from `BB` to `BC`. -/
def tamperedCertificate : List Byte :=
  [0x7F, 0x21, 0x0A, 0x7F, 0x4E, 0x02, 0xAA, 0xBC, 0x5F, 0x37, 0x02, 0xCC, 0xDD]

/-- A verifier that rejects every signature. -/
def rejectingVerifier : Verifier Unit := fun _ _ _ _ _ _ => -1

/-! # Theorems -/

/-! ## Theorems: `selectAttributes` -/

theorem selectAttributes_probes_eq :
    selectAttributes_probes =
      [1, 2, 4, 8, 16, 32, 64, 128, 256, 512, 1024, 2048, 4096, 8192, 16384] := by
  decide

theorem selectAttributes_loop_eq_some (credential : Credential) (selection : Nat)
    (probes : List Nat) (i : Nat) (hi : i ∈ probes)
    (h : selectAttributes_invalid credential selection i = true) :
    selectAttributes_loop credential selection probes = some ISO7816_SW_WRONG_DATA := by
  induction probes with
  | nil => cases hi
  | cons j rest ih =>
    unfold selectAttributes_loop
    by_cases hj : selectAttributes_invalid credential selection j = true
    · simp [hj]
    · rcases List.mem_cons.mp hi with rfl | hmem
      · exact absurd h hj
      · simp [hj, ih hmem]

theorem selectAttributes_loop_eq_none (credential : Credential) (selection : Nat)
    (probes : List Nat)
    (h : ∀ i ∈ probes, selectAttributes_invalid credential selection i = false) :
    selectAttributes_loop credential selection probes = none := by
  induction probes with
  | nil => rfl
  | cons j rest ih =>
    unfold selectAttributes_loop
    rw [h j (List.mem_cons_self j rest)]
    simpa using ih (fun i hi => h i (List.mem_cons_of_mem j hi))

theorem selectAttributes_invalid_of_odd (credential : Credential) (selection i : Nat)
    (hbit : selection.testBit 0 = true) (hi : i ≠ 0) (hsize : credential.size < i) :
    selectAttributes_invalid credential selection i = true := by
  have hodd : selection % 2 = 1 := by simpa [Nat.testBit_zero] using hbit
  simp [selectAttributes_invalid, hi, Nat.and_one_is_mod, hodd, hsize]

theorem selectAttributes_invalid_of_even (credential : Credential) (selection i : Nat)
    (hbit : selection.testBit 0 = false) :
    selectAttributes_invalid credential selection i = false := by
  have heven : selection % 2 = 0 := by
    have := Nat.mod_two_eq_zero_or_one selection
    rcases this with h | h
    · exact h
    · simp [Nat.testBit_zero, h] at hbit
  by_cases hi : i = 0
  · simp [selectAttributes_invalid, hi]
  · simp [selectAttributes_invalid, hi, Nat.and_one_is_mod, heven]

/-- C1 (the code against the claim): with `credential->size = 4` the mask `0x20`, whose
only bit has index 5, is accepted and recorded as the disclosure set. -/
theorem selectAttributes_accepts_index_above_size :
    (selectAttributes exampleCredential 0x20 exampleSession).1 = none ∧
    (selectAttributes exampleCredential 0x20 exampleSession).2.disclose = 0x20 := by
  decide

/-- C8: whenever `credential->size` is below `0x4000` and bit 0 of the mask is set,
`selectAttributes` ends with the wrong-data status word. -/
theorem selectAttributes_rejects_bit_zero (credential : Credential) (selection : Nat)
    (session : ProofSession) (hsize : credential.size < 0x4000)
    (hbit : selection.testBit 0 = true) :
    (selectAttributes credential selection session).1 = some ISO7816_SW_WRONG_DATA := by
  have hloop := selectAttributes_loop_eq_some credential selection selectAttributes_probes
    0x4000 (by rw [selectAttributes_probes_eq]; decide)
    (selectAttributes_invalid_of_odd credential selection 0x4000 hbit (by decide) hsize)
  simp [selectAttributes, hloop]

theorem selectAttributes_rejects_bit_zero_witness :
    exampleCredential.size < 0x4000 ∧ (0x15 : Nat).testBit 0 = true ∧
    (selectAttributes exampleCredential 0x15 exampleSession).1
      = some ISO7816_SW_WRONG_DATA :=
  ⟨by decide, by decide,
    selectAttributes_rejects_bit_zero exampleCredential 0x15 exampleSession
      (by decide) (by decide)⟩

/-- C9 (the code against the claim): the rejected mask `0x01` leaves the disclosure
field at the value `0x06` it held before the call, not at zero. -/
theorem selectAttributes_rejection_keeps_disclose :
    (selectAttributes exampleCredential 0x01 exampleSession).1
      = some ISO7816_SW_WRONG_DATA ∧
    (selectAttributes exampleCredential 0x01 exampleSession).2.disclose = 0x06 := by
  decide

/-! ## Theorems: `authentication.c` -/

/-- C5: when the three tags match, `authentication_verifyCertificate` succeeds exactly
when `RSA_PSS_verify` returns a non-negative result, a negative result ends the call
with `SW_SECURITY_STATUS_NOT_SATISFIED`, and the pointer returned on success is the
`body` pointer handed to the verifier, the start of the value of the outer element. -/
theorem authentication_verifyCertificate_tags_match {Key : Type}
    (ASN1_decode_tlv : Decoder) (RSA_PSS_verify : Verifier Key) (key : Key)
    (cert : List Byte)
    (h1 : (ASN1_decode_tlv cert 0).1.tag = 0x7F21)
    (h2 : (ASN1_decode_tlv cert (ASN1_decode_tlv cert 0).1.value).1.tag = 0x7F4E)
    (h3 : (ASN1_decode_tlv cert
      (ASN1_decode_tlv cert (ASN1_decode_tlv cert 0).1.value).2).1.tag = 0x5F37) :
    let outer := (ASN1_decode_tlv cert 0).1
    let inner := ASN1_decode_tlv cert outer.value
    let last := (ASN1_decode_tlv cert inner.2).1
    let verdict := RSA_PSS_verify key ((inner.2 : Int) - (outer.value : Int)) outer.value
      last.length last.value cert
    let result := authentication_verifyCertificate ASN1_decode_tlv RSA_PSS_verify key cert
    ((∃ body, result = Except.ok body) ↔ 0 ≤ verdict) ∧
    (verdict < 0 → result = Except.error StatusWord.SW_SECURITY_STATUS_NOT_SATISFIED) ∧
    (∀ body, result = Except.ok body → body = outer.value) := by
  intro outer inner last verdict result
  have hres : result = if verdict < 0 then
      Except.error StatusWord.SW_SECURITY_STATUS_NOT_SATISFIED
      else Except.ok outer.value := by
    simp only [result, authentication_verifyCertificate, h1, h2, h3, verdict, last, inner,
      outer]
    simp
  rw [hres]
  by_cases hv : verdict < 0
  · simp [hv]
  · simp [hv, not_lt.mp hv]

theorem authentication_verifyCertificate_tags_match_witness :
    (exampleDecoder exampleCertificate 0).1.tag = 0x7F21 ∧
    (exampleDecoder exampleCertificate 3).1.tag = 0x7F4E ∧
    (exampleDecoder exampleCertificate 8).1.tag = 0x5F37 ∧
    authentication_verifyCertificate exampleDecoder rejectingVerifier () exampleCertificate
      = Except.error StatusWord.SW_SECURITY_STATUS_NOT_SATISFIED :=
  ⟨by decide, by decide, by decide,
    (authentication_verifyCertificate_tags_match exampleDecoder rejectingVerifier ()
      exampleCertificate (by decide) (by decide) (by decide)).2.1 (by decide)⟩

/-- C6: when one of the three tags is not the expected one, the call ends with
`SW_WRONG_DATA` whatever `RSA_PSS_verify` would answer: the verifier is not consulted. -/
theorem authentication_verifyCertificate_tag_mismatch {Key : Type}
    (ASN1_decode_tlv : Decoder) (RSA_PSS_verify : Verifier Key) (key : Key)
    (cert : List Byte)
    (h : (ASN1_decode_tlv cert 0).1.tag ≠ 0x7F21 ∨
      (ASN1_decode_tlv cert (ASN1_decode_tlv cert 0).1.value).1.tag ≠ 0x7F4E ∨
      (ASN1_decode_tlv cert
        (ASN1_decode_tlv cert (ASN1_decode_tlv cert 0).1.value).2).1.tag ≠ 0x5F37) :
    authentication_verifyCertificate ASN1_decode_tlv RSA_PSS_verify key cert
      = Except.error StatusWord.SW_WRONG_DATA := by
  by_cases h1 : (ASN1_decode_tlv cert 0).1.tag = 0x7F21
  · by_cases h2 : (ASN1_decode_tlv cert (ASN1_decode_tlv cert 0).1.value).1.tag = 0x7F4E
    · have h3 : (ASN1_decode_tlv cert
          (ASN1_decode_tlv cert (ASN1_decode_tlv cert 0).1.value).2).1.tag ≠ 0x5F37 := by
        rcases h with h | h | h
        · exact absurd h1 h
        · exact absurd h2 h
        · exact h
      simp [authentication_verifyCertificate, h1, h2, h3]
    · simp [authentication_verifyCertificate, h1, h2]
  · simp [authentication_verifyCertificate, h1]

theorem authentication_verifyCertificate_tag_mismatch_witness :
    (exampleDecoder mistaggedCertificate 3).1.tag ≠ 0x7F4E ∧
    authentication_verifyCertificate exampleDecoder rejectingVerifier ()
      mistaggedCertificate = Except.error StatusWord.SW_WRONG_DATA :=
  ⟨by decide,
    authentication_verifyCertificate_tag_mismatch exampleDecoder rejectingVerifier ()
      mistaggedCertificate (Or.inr (Or.inl (by decide)))⟩

theorem NotEqual_eq_false_iff (size : Nat) (buffer1 buffer2 : Nat → Byte) :
    NotEqual size buffer1 buffer2 = false ↔ ∀ i, i < size → buffer1 i = buffer2 i := by
  simp [NotEqual]

/-- C7: `authentication_authenticateTerminal` returns normally exactly when the
`AUTH_CHALLENGE_BYTES` bytes of the response equal those of the nonce, and ends with
`SW_WRONG_DATA` for every response that differs from the nonce in one of them. -/
theorem authentication_authenticateTerminal_iff (AUTH_CHALLENGE_BYTES : Nat)
    (response nonce : Nat → Byte) :
    (authentication_authenticateTerminal AUTH_CHALLENGE_BYTES response nonce = Except.ok ()
      ↔ ∀ i, i < AUTH_CHALLENGE_BYTES → response i = nonce i) ∧
    ((∃ i, i < AUTH_CHALLENGE_BYTES ∧ response i ≠ nonce i) →
      authentication_authenticateTerminal AUTH_CHALLENGE_BYTES response nonce
        = Except.error StatusWord.SW_WRONG_DATA) := by
  by_cases h : NotEqual AUTH_CHALLENGE_BYTES response nonce = false
  · have hall := (NotEqual_eq_false_iff _ _ _).mp h
    refine ⟨⟨fun _ => hall, fun _ => by simp [authentication_authenticateTerminal, h]⟩, ?_⟩
    rintro ⟨i, hi, hne⟩
    exact absurd (hall i hi) hne
  · have hnot : ¬ ∀ i, i < AUTH_CHALLENGE_BYTES → response i = nonce i :=
      fun hall => h ((NotEqual_eq_false_iff _ _ _).mpr hall)
    have ht : NotEqual AUTH_CHALLENGE_BYTES response nonce = true := by
      simpa using h
    refine ⟨by simp [authentication_authenticateTerminal, ht, hnot], ?_⟩
    intro _
    simp [authentication_authenticateTerminal, ht]

/-! ## Theorems: `constructProof` -/

theorem foldl_disclosed_filter (f : ProofSession → Nat → ProofSession)
    (hf : ∀ s i, (f s i).disclose = s.disclose) (l : List Nat) (s : ProofSession) :
    l.foldl (fun s i => if disclosed s i == 0 then f s i else s) s
      = (l.filter (fun i => disclosed s i == 0)).foldl f s := by
  induction l generalizing s with
  | nil => rfl
  | cons i rest ih =>
    simp only [List.foldl_cons, List.filter_cons]
    by_cases h : (disclosed s i == 0) = true
    · simp only [h, if_true, List.foldl_cons]
      rw [ih (f s i)]
      have : ∀ j, disclosed (f s i) j = disclosed s j := by
        intro j
        simp [disclosed, hf]
      simp only [this]
    · simp only [h, if_false]
      exact ih s

theorem randomise_loop (P : Platform) (len : Nat) (l : List Nat) (s : ProofSession) :
    ∃ m, (∀ j, j ∉ l → m j = s.mHat j) ∧
      l.foldl (fun s i => crypto_generate_random P s (Loc.mHat i) len) s
        = { s with mHat := m, drawn := s.drawn + l.length,
                   trace := s.trace ++ l.map (fun i => Call.generate_random (Loc.mHat i) len) } := by
  induction l generalizing s with
  | nil => exact ⟨s.mHat, fun _ _ => rfl, by simp⟩
  | cons i rest ih =>
    obtain ⟨m, hm, heq⟩ := ih (crypto_generate_random P s (Loc.mHat i) len)
    refine ⟨m, ?_, ?_⟩
    · intro j hj
      have hji : j ≠ i := fun h => hj (h ▸ List.mem_cons_self _ _)
      have hjr : j ∉ rest := fun h => hj (List.mem_cons_of_mem _ h)
      rw [hm j hjr]
      simp [crypto_generate_random, store, logCall, Function.update, hji]
    · rw [List.foldl_cons, heq]
      simp [crypto_generate_random, store, logCall, Nat.add_assoc, Nat.add_comm 1]

theorem ZTilde_loop (credential : Credential) (l : List Nat) (s : ProofSession) (X : Nat)
    (hX : s.number0 = X % credential.issuerKey.n) :
    ∃ x1, l.foldl (fun s i =>
        crypto_modmul credential
          (crypto_modexp credential s (Loc.mHat i) credential.issuerKey.n (Loc.R i)
            Loc.number1)
          Loc.number0 Loc.number1 credential.issuerKey.n) s
      = { s with
          number0 := (X * (l.map (fun i => credential.issuerKey.R i ^ s.mHat i)).prod)
            % credential.issuerKey.n,
          number1 := x1,
          trace := s.trace ++ l.flatMap (fun i =>
            [Call.modexp (Loc.mHat i) (Loc.R i) Loc.number1,
             Call.modmul Loc.number0 Loc.number1]) } := by
  induction l generalizing s X with
  | nil => exact ⟨s.number1, by simp [← hX]⟩
  | cons i rest ih =>
    have hstep : (crypto_modmul credential
          (crypto_modexp credential s (Loc.mHat i) credential.issuerKey.n (Loc.R i)
            Loc.number1)
          Loc.number0 Loc.number1 credential.issuerKey.n).number0
        = (X * credential.issuerKey.R i ^ s.mHat i) % credential.issuerKey.n := by
      simp [crypto_modmul, crypto_modexp, store, logCall, load, hX, Nat.mul_mod]
    obtain ⟨x1, heq⟩ := ih _ _ hstep
    refine ⟨x1, ?_⟩
    rw [List.foldl_cons, heq]
    simp [crypto_modmul, crypto_modexp, store, logCall, load, Nat.mul_assoc]

theorem responses_loop (credential : Credential) (l : List Nat) (s : ProofSession) :
    ∃ m, (∀ j, j ∉ l → m j = s.mHat j) ∧
      l.foldl (fun s i => crypto_compute_mHat credential s i) s
        = { s with mHat := m, trace := s.trace ++ l.map (fun i => Call.compute_mHat i) } := by
  induction l generalizing s with
  | nil => exact ⟨s.mHat, fun _ _ => rfl, by simp⟩
  | cons i rest ih =>
    obtain ⟨m, hm, heq⟩ := ih (crypto_compute_mHat credential s i)
    refine ⟨m, ?_, ?_⟩
    · intro j hj
      have hji : j ≠ i := fun h => hj (h ▸ List.mem_cons_self _ _)
      have hjr : j ∉ rest := fun h => hj (List.mem_cons_of_mem _ h)
      rw [hm j hjr]
      simp [crypto_compute_mHat, logCall, Function.update, hji]
    · rw [List.foldl_cons, heq]
      simp [crypto_compute_mHat, logCall]

theorem constructProof_randomise_eq (P : Platform) (Z : Sizes) (credential : Credential)
    (s : ProofSession) :
    ∃ m, (∀ j, j ∉ undisclosed credential s → m j = s.mHat j) ∧
      constructProof_randomise P Z credential s
        = { s with
            mHat := m,
            eHat := P.random (s.drawn + (undisclosed credential s).length) % 2 ^ Z.LENGTH_E_,
            vHat := P.random (s.drawn + (undisclosed credential s).length + 1)
              % 2 ^ Z.LENGTH_V_,
            rA := P.random (s.drawn + (undisclosed credential s).length + 2)
              % 2 ^ (Z.LENGTH_R_A - 7),
            drawn := s.drawn + (undisclosed credential s).length + 3,
            trace := s.trace ++
              (undisclosed credential s).map
                (fun i => Call.generate_random (Loc.mHat i) Z.LENGTH_M_) ++
              [Call.generate_random Loc.eHat Z.LENGTH_E_,
               Call.generate_random Loc.vHat Z.LENGTH_V_,
               Call.generate_random Loc.rA (Z.LENGTH_R_A - 7)] } := by
  obtain ⟨m, hm, heq⟩ := randomise_loop P Z.LENGTH_M_ (undisclosed credential s) s
  refine ⟨m, hm, ?_⟩
  unfold constructProof_randomise
  rw [foldl_disclosed_filter
    (fun s i => crypto_generate_random P s (Loc.mHat i) Z.LENGTH_M_)
    (by intro s i; simp [crypto_generate_random, store, logCall])]
  unfold undisclosed at heq
  rw [heq]
  simp [crypto_generate_random, store, logCall, undisclosed]

theorem constructProof_APrime_eq (P : Platform) (credential : Credential)
    (s : ProofSession) :
    constructProof_APrime P credential s
      = { s with
          APrime := (credential.issuerKey.S ^ s.rA % credential.issuerKey.n)
            * credential.signature.A % credential.issuerKey.n,
          number0 := P.modexp_work s.rA,
          trace := s.trace ++
            [Call.modexp_special Loc.rA Loc.APrime Loc.number0,
             Call.modmul Loc.APrime Loc.A] } := by
  simp [constructProof_APrime, crypto_modexp_special, crypto_modmul, store, logCall, load]

theorem constructProof_ZTilde_eq (P : Platform) (credential : Credential)
    (s : ProofSession) :
    ∃ x1, constructProof_ZTilde P credential s
      = { s with
          number0 := (credential.issuerKey.S ^ s.vHat * s.APrime ^ s.eHat *
            ((undisclosed credential s).map
              (fun i => credential.issuerKey.R i ^ s.mHat i)).prod)
            % credential.issuerKey.n,
          number1 := x1,
          trace := s.trace ++
            [Call.modexp_special Loc.vHat Loc.number0 Loc.number1,
             Call.modexp Loc.eHat Loc.APrime Loc.number1,
             Call.modmul Loc.number0 Loc.number1] ++
            (undisclosed credential s).flatMap (fun i =>
              [Call.modexp (Loc.mHat i) (Loc.R i) Loc.number1,
               Call.modmul Loc.number0 Loc.number1]) } := by
  unfold constructProof_ZTilde
  simp only []
  rw [foldl_disclosed_filter
    (fun s i => crypto_modmul credential
          (crypto_modexp credential s (Loc.mHat i) credential.issuerKey.n (Loc.R i)
            Loc.number1)
          Loc.number0 Loc.number1 credential.issuerKey.n)
    (by intro s i; simp [crypto_modmul, crypto_modexp, store, logCall])]
  obtain ⟨x1, heq⟩ := ZTilde_loop credential
    (List.filter (fun i => disclosed
      (crypto_modmul credential
        (crypto_modexp credential
          (crypto_modexp_special P credential s Loc.vHat Loc.number0 Loc.number1)
          Loc.eHat credential.issuerKey.n Loc.APrime Loc.number1)
        Loc.number0 Loc.number1 credential.issuerKey.n) i == 0)
      (List.range (credential.size + 1)))
    (crypto_modmul credential
        (crypto_modexp credential
          (crypto_modexp_special P credential s Loc.vHat Loc.number0 Loc.number1)
          Loc.eHat credential.issuerKey.n Loc.APrime Loc.number1)
        Loc.number0 Loc.number1 credential.issuerKey.n)
    (credential.issuerKey.S ^ s.vHat * s.APrime ^ s.eHat)
    (by simp [crypto_modmul, crypto_modexp, crypto_modexp_special, store, logCall, load,
          Nat.mul_mod])
  refine ⟨x1, ?_⟩
  rw [heq]
  simp [crypto_modmul, crypto_modexp, crypto_modexp_special, store, logCall, load,
    undisclosed, disclosed]

theorem constructProof_challenge_eq (P : Platform) (Z : Sizes) (s : ProofSession) :
    constructProof_challenge P Z s
      = { s with
          list := [(s.context, Z.SIZE_H), (s.APrime, Z.SIZE_N), (s.number0, Z.SIZE_N),
            (s.nonce, Z.SIZE_STATZK)],
          challenge := P.hash [(s.context, Z.SIZE_H), (s.APrime, Z.SIZE_N),
            (s.number0, Z.SIZE_N), (s.nonce, Z.SIZE_STATZK)],
          data := P.hash_work [(s.context, Z.SIZE_H), (s.APrime, Z.SIZE_N),
            (s.number0, Z.SIZE_N), (s.nonce, Z.SIZE_STATZK)] s.data,
          trace := s.trace ++ [Call.compute_hash [(s.context, Z.SIZE_H),
            (s.APrime, Z.SIZE_N), (s.number0, Z.SIZE_N), (s.nonce, Z.SIZE_STATZK)]] } := by
  simp [constructProof_challenge, crypto_compute_hash, logCall]

theorem constructProof_responses_eq (P : Platform) (Z : Sizes) (credential : Credential)
    (s : ProofSession) :
    ∃ m eH d vH, (∀ j, j ∉ undisclosed credential s → m j = s.mHat j) ∧
      constructProof_responses P Z credential s
        = { s with
            mHat := m, eHat := eH, data := d, vHat := vH,
            trace := s.trace ++
              [Call.compute_eHat, Call.compute_vPrime, Call.compute_vHat] ++
              (undisclosed credential s).map (fun i => Call.compute_mHat i) } := by
  unfold constructProof_responses
  simp only []
  rw [foldl_disclosed_filter (fun s i => crypto_compute_mHat credential s i)
    (by intro s i; simp [crypto_compute_mHat, logCall])]
  obtain ⟨m, hm, heq⟩ := responses_loop credential
    (List.filter (fun i => disclosed
      (crypto_compute_vHat Z (constructProof_vPrime P Z credential
        (crypto_compute_eHat Z credential s))) i == 0)
      (List.range (credential.size + 1)))
    (crypto_compute_vHat Z (constructProof_vPrime P Z credential
        (crypto_compute_eHat Z credential s)))
  have hU : List.filter (fun i => disclosed
      (crypto_compute_vHat Z (constructProof_vPrime P Z credential
        (crypto_compute_eHat Z credential s))) i == 0)
      (List.range (credential.size + 1)) = undisclosed credential s := by
    simp [undisclosed, disclosed, crypto_compute_vHat, constructProof_vPrime,
      crypto_compute_eHat, logCall]
  rw [hU] at hm heq
  rw [hU, heq]
  refine ⟨m, (crypto_compute_eHat Z credential s).eHat,
    (constructProof_vPrime P Z credential (crypto_compute_eHat Z credential s)).data,
    (crypto_compute_vHat Z (constructProof_vPrime P Z credential
        (crypto_compute_eHat Z credential s))).vHat, ?_, ?_⟩
  · intro j hj
    rw [hm j hj]
    simp [crypto_compute_vHat, constructProof_vPrime, crypto_compute_eHat, logCall]
  · simp [crypto_compute_vHat, constructProof_vPrime, crypto_compute_eHat, logCall]

/-- The state `constructProof` leaves, field by field (the fields no claim speaks of are
left unspecified). `m1` is `mHat` after the randomisation step, `m2` the final one. -/
theorem constructProof_eq (P : Platform) (Z : Sizes) (credential : Credential)
    (s : ProofSession) :
    ∃ m1 m2 x1 eH d vH,
      (∀ j, j ∉ undisclosed credential s → m1 j = s.mHat j) ∧
      (∀ j, j ∉ undisclosed credential s → m2 j = s.mHat j) ∧
      (constructProof_randomise P Z credential s).mHat = m1 ∧
      (constructProof_randomise P Z credential s).eHat
        = P.random (s.drawn + (undisclosed credential s).length) % 2 ^ Z.LENGTH_E_ ∧
      (constructProof_randomise P Z credential s).vHat
        = P.random (s.drawn + (undisclosed credential s).length + 1) % 2 ^ Z.LENGTH_V_ ∧
      (constructProof_randomise P Z credential s).trace
        = s.trace ++
          (undisclosed credential s).map
            (fun i => Call.generate_random (Loc.mHat i) Z.LENGTH_M_) ++
          [Call.generate_random Loc.eHat Z.LENGTH_E_,
           Call.generate_random Loc.vHat Z.LENGTH_V_,
           Call.generate_random Loc.rA (Z.LENGTH_R_A - 7)] ∧
      constructProof P Z credential s
        = { s with
            mHat := m2, eHat := eH, vHat := vH, data := d, number1 := x1,
            rA := P.random (s.drawn + (undisclosed credential s).length + 2)
              % 2 ^ (Z.LENGTH_R_A - 7),
            APrime := (credential.issuerKey.S ^
                (P.random (s.drawn + (undisclosed credential s).length + 2)
                  % 2 ^ (Z.LENGTH_R_A - 7)) % credential.issuerKey.n)
              * credential.signature.A % credential.issuerKey.n,
            number0 := (credential.issuerKey.S ^
                (P.random (s.drawn + (undisclosed credential s).length + 1)
                  % 2 ^ Z.LENGTH_V_) *
              ((credential.issuerKey.S ^
                (P.random (s.drawn + (undisclosed credential s).length + 2)
                  % 2 ^ (Z.LENGTH_R_A - 7)) % credential.issuerKey.n)
              * credential.signature.A % credential.issuerKey.n) ^
                (P.random (s.drawn + (undisclosed credential s).length) % 2 ^ Z.LENGTH_E_) *
              ((undisclosed credential s).map
                (fun i => credential.issuerKey.R i ^ m1 i)).prod)
              % credential.issuerKey.n,
            list := [(s.context, Z.SIZE_H),
              ((credential.issuerKey.S ^
                (P.random (s.drawn + (undisclosed credential s).length + 2)
                  % 2 ^ (Z.LENGTH_R_A - 7)) % credential.issuerKey.n)
              * credential.signature.A % credential.issuerKey.n, Z.SIZE_N),
              ((credential.issuerKey.S ^
                (P.random (s.drawn + (undisclosed credential s).length + 1)
                  % 2 ^ Z.LENGTH_V_) *
              ((credential.issuerKey.S ^
                (P.random (s.drawn + (undisclosed credential s).length + 2)
                  % 2 ^ (Z.LENGTH_R_A - 7)) % credential.issuerKey.n)
              * credential.signature.A % credential.issuerKey.n) ^
                (P.random (s.drawn + (undisclosed credential s).length) % 2 ^ Z.LENGTH_E_) *
              ((undisclosed credential s).map
                (fun i => credential.issuerKey.R i ^ m1 i)).prod)
              % credential.issuerKey.n, Z.SIZE_N),
              (s.nonce, Z.SIZE_STATZK)],
            challenge := P.hash [(s.context, Z.SIZE_H),
              ((credential.issuerKey.S ^
                (P.random (s.drawn + (undisclosed credential s).length + 2)
                  % 2 ^ (Z.LENGTH_R_A - 7)) % credential.issuerKey.n)
              * credential.signature.A % credential.issuerKey.n, Z.SIZE_N),
              ((credential.issuerKey.S ^
                (P.random (s.drawn + (undisclosed credential s).length + 1)
                  % 2 ^ Z.LENGTH_V_) *
              ((credential.issuerKey.S ^
                (P.random (s.drawn + (undisclosed credential s).length + 2)
                  % 2 ^ (Z.LENGTH_R_A - 7)) % credential.issuerKey.n)
              * credential.signature.A % credential.issuerKey.n) ^
                (P.random (s.drawn + (undisclosed credential s).length) % 2 ^ Z.LENGTH_E_) *
              ((undisclosed credential s).map
                (fun i => credential.issuerKey.R i ^ m1 i)).prod)
              % credential.issuerKey.n, Z.SIZE_N),
              (s.nonce, Z.SIZE_STATZK)],
            drawn := s.drawn + (undisclosed credential s).length + 3,
            trace := s.trace ++
              (undisclosed credential s).map
                (fun i => Call.generate_random (Loc.mHat i) Z.LENGTH_M_) ++
              [Call.generate_random Loc.eHat Z.LENGTH_E_,
               Call.generate_random Loc.vHat Z.LENGTH_V_,
               Call.generate_random Loc.rA (Z.LENGTH_R_A - 7),
               Call.modexp_special Loc.rA Loc.APrime Loc.number0,
               Call.modmul Loc.APrime Loc.A,
               Call.modexp_special Loc.vHat Loc.number0 Loc.number1,
               Call.modexp Loc.eHat Loc.APrime Loc.number1,
               Call.modmul Loc.number0 Loc.number1] ++
              (undisclosed credential s).flatMap (fun i =>
                [Call.modexp (Loc.mHat i) (Loc.R i) Loc.number1,
                 Call.modmul Loc.number0 Loc.number1]) ++
              [Call.compute_hash [(s.context, Z.SIZE_H),
              ((credential.issuerKey.S ^
                (P.random (s.drawn + (undisclosed credential s).length + 2)
                  % 2 ^ (Z.LENGTH_R_A - 7)) % credential.issuerKey.n)
              * credential.signature.A % credential.issuerKey.n, Z.SIZE_N),
              ((credential.issuerKey.S ^
                (P.random (s.drawn + (undisclosed credential s).length + 1)
                  % 2 ^ Z.LENGTH_V_) *
              ((credential.issuerKey.S ^
                (P.random (s.drawn + (undisclosed credential s).length + 2)
                  % 2 ^ (Z.LENGTH_R_A - 7)) % credential.issuerKey.n)
              * credential.signature.A % credential.issuerKey.n) ^
                (P.random (s.drawn + (undisclosed credential s).length) % 2 ^ Z.LENGTH_E_) *
              ((undisclosed credential s).map
                (fun i => credential.issuerKey.R i ^ m1 i)).prod)
              % credential.issuerKey.n, Z.SIZE_N),
              (s.nonce, Z.SIZE_STATZK)],
               Call.compute_eHat, Call.compute_vPrime, Call.compute_vHat] ++
              (undisclosed credential s).map (fun i => Call.compute_mHat i) } := by
  obtain ⟨m1, hm1, h1⟩ := constructProof_randomise_eq P Z credential s
  have hU : ∀ t : ProofSession, t.disclose = s.disclose →
      undisclosed credential t = undisclosed credential s := by
    intro t ht
    simp [undisclosed, disclosed, ht]
  obtain ⟨x1, h3⟩ := constructProof_ZTilde_eq P credential
    (constructProof_APrime P credential (constructProof_randomise P Z credential s))
  obtain ⟨m2, eH, d, vH, hm2, h5⟩ := constructProof_responses_eq P Z credential
    (constructProof_challenge P Z (constructProof_ZTilde P credential
      (constructProof_APrime P credential (constructProof_randomise P Z credential s))))
  have hd1 : (constructProof_randomise P Z credential s).disclose = s.disclose := by
    rw [h1]
  have hd2 : (constructProof_APrime P credential
      (constructProof_randomise P Z credential s)).disclose = s.disclose := by
    rw [constructProof_APrime_eq]; exact hd1
  have hd3 : (constructProof_ZTilde P credential (constructProof_APrime P credential
      (constructProof_randomise P Z credential s))).disclose = s.disclose := by
    rw [h3]; exact hd2
  have hd4 : (constructProof_challenge P Z (constructProof_ZTilde P credential
      (constructProof_APrime P credential
        (constructProof_randomise P Z credential s)))).disclose = s.disclose := by
    rw [constructProof_challenge_eq]; exact hd3
  rw [hU _ hd2] at h3
  rw [hU _ hd4] at hm2 h5
  refine ⟨m1, m2, x1, eH, d, vH, hm1, ?_, by rw [h1], by rw [h1], by rw [h1], by rw [h1], ?_⟩
  · intro j hj
    rw [hm2 j hj, constructProof_challenge_eq, h3, constructProof_APrime_eq, h1]
    exact hm1 j hj
  · unfold constructProof
    simp only []
    rw [h5, constructProof_challenge_eq, h3, constructProof_APrime_eq, h1]
    simp

theorem mem_undisclosed (credential : Credential) (s : ProofSession) (i : Nat) :
    i ∈ undisclosed credential s ↔ i ≤ credential.size ∧ disclosed s i = 0 := by
  simp [undisclosed, Nat.lt_succ_iff]

theorem undisclosed_nodup (credential : Credential) (s : ProofSession) :
    (undisclosed credential s).Nodup :=
  (List.nodup_range _).filter _

theorem randomisedIndices_draws (len : Nat) (l : List Nat) :
    randomisedIndices (l.map (fun i => Call.generate_random (Loc.mHat i) len)) = l := by
  induction l with
  | nil => rfl
  | cons i rest ih => simpa [randomisedIndices] using ih

theorem randomisedIndices_terms (l : List Nat) :
    randomisedIndices (l.flatMap (fun i =>
      [Call.modexp (Loc.mHat i) (Loc.R i) Loc.number1,
       Call.modmul Loc.number0 Loc.number1])) = [] := by
  induction l with
  | nil => rfl
  | cons i rest ih => simpa [randomisedIndices] using ih

theorem randomisedIndices_responses (l : List Nat) :
    randomisedIndices (l.map (fun i => Call.compute_mHat i)) = [] := by
  induction l with
  | nil => rfl
  | cons i rest ih => simp [randomisedIndices]

theorem commitmentIndices_draws (len : Nat) (l : List Nat) :
    commitmentIndices (l.map (fun i => Call.generate_random (Loc.mHat i) len)) = [] := by
  induction l with
  | nil => rfl
  | cons i rest ih => simp [commitmentIndices]

theorem commitmentIndices_terms (l : List Nat) :
    commitmentIndices (l.flatMap (fun i =>
      [Call.modexp (Loc.mHat i) (Loc.R i) Loc.number1,
       Call.modmul Loc.number0 Loc.number1])) = l := by
  induction l with
  | nil => rfl
  | cons i rest ih => simpa [commitmentIndices] using ih

theorem commitmentIndices_responses (l : List Nat) :
    commitmentIndices (l.map (fun i => Call.compute_mHat i)) = [] := by
  induction l with
  | nil => rfl
  | cons i rest ih => simp [commitmentIndices]

theorem responseIndices_draws (len : Nat) (l : List Nat) :
    responseIndices (l.map (fun i => Call.generate_random (Loc.mHat i) len)) = [] := by
  induction l with
  | nil => rfl
  | cons i rest ih => simp [responseIndices]

theorem responseIndices_terms (l : List Nat) :
    responseIndices (l.flatMap (fun i =>
      [Call.modexp (Loc.mHat i) (Loc.R i) Loc.number1,
       Call.modmul Loc.number0 Loc.number1])) = [] := by
  induction l with
  | nil => rfl
  | cons i rest ih => simpa [responseIndices] using ih

theorem responseIndices_responses (l : List Nat) :
    responseIndices (l.map (fun i => Call.compute_mHat i)) = l := by
  induction l with
  | nil => rfl
  | cons i rest ih => simpa [responseIndices] using ih

theorem randomisedIndices_append (a b : List Call) :
    randomisedIndices (a ++ b) = randomisedIndices a ++ randomisedIndices b := by
  simp [randomisedIndices]

theorem commitmentIndices_append (a b : List Call) :
    commitmentIndices (a ++ b) = commitmentIndices a ++ commitmentIndices b := by
  simp [commitmentIndices]

theorem responseIndices_append (a b : List Call) :
    responseIndices (a ++ b) = responseIndices a ++ responseIndices b := by
  simp [responseIndices]

/-- The three index lists read off the calls of one run of `constructProof`. -/
theorem constructProof_calls_indices (P : Platform) (Z : Sizes) (credential : Credential)
    (s : ProofSession) :
    randomisedIndices (constructProof_calls P Z credential s) = undisclosed credential s ∧
    commitmentIndices (constructProof_calls P Z credential s) = undisclosed credential s ∧
    responseIndices (constructProof_calls P Z credential s) = undisclosed credential s := by
  obtain ⟨m1, m2, x1, eH, d, vH, -, -, -, -, -, -, hfinal⟩ :=
    constructProof_eq P Z credential s
  unfold constructProof_calls
  rw [hfinal]
  simp only [List.append_assoc, List.drop_left]
  refine ⟨?_, ?_, ?_⟩
  · simp only [randomisedIndices_append, randomisedIndices_draws, randomisedIndices_terms,
      randomisedIndices_responses]
    simp [randomisedIndices]
  · simp only [commitmentIndices_append, commitmentIndices_draws, commitmentIndices_terms,
      commitmentIndices_responses]
    simp [commitmentIndices]
  · simp only [responseIndices_append, responseIndices_draws, responseIndices_terms,
      responseIndices_responses]
    simp [responseIndices]

/-- C3: the third slice `constructProof` hands to `crypto_compute_hash`, the content of
`buffer.number[0]`, is `S^(v~) * A'^(e~) * ∏ R[i]^(m~[i])` reduced mod `n`, the product
running over the indices `i` of `0..credential->size` with `disclosed(i) == 0`, each
once; `v~`, `e~` and `m~[i]` are the values the randomisation step drew. -/
theorem constructProof_commitment (P : Platform) (Z : Sizes) (credential : Credential)
    (s : ProofSession) :
    let drawn := constructProof_randomise P Z credential s
    let final := constructProof P Z credential s
    final.list = [(s.context, Z.SIZE_H), (final.APrime, Z.SIZE_N),
      ((credential.issuerKey.S ^ drawn.vHat * final.APrime ^ drawn.eHat *
          ((undisclosed credential s).map
            (fun i => credential.issuerKey.R i ^ drawn.mHat i)).prod)
        % credential.issuerKey.n, Z.SIZE_N),
      (s.nonce, Z.SIZE_STATZK)] ∧
    Call.compute_hash final.list ∈ constructProof_calls P Z credential s ∧
    final.challenge = P.hash final.list ∧
    (∀ i, i ∈ undisclosed credential s ↔ i ≤ credential.size ∧ disclosed s i = 0) ∧
    (undisclosed credential s).Nodup := by
  intro drawn final
  obtain ⟨m1, m2, x1, eH, d, vH, -, -, hm, he, hv, -, hfinal⟩ :=
    constructProof_eq P Z credential s
  refine ⟨?_, ?_, ?_, mem_undisclosed credential s, undisclosed_nodup credential s⟩
  · simp only [final, drawn, hm, he, hv]
    rw [hfinal]
  · simp only [final, constructProof_calls]
    rw [hfinal]
    simp only [List.append_assoc, List.drop_left]
    simp
  · simp only [final]
    rw [hfinal]

/-- C10: the three loops of `constructProof` act on the same indices, those of
`0..credential->size` with `disclosed(i) == 0`: the calls up to the end of the
randomisation step are the draws of `mHat[i]` for these indices followed by the draws
of `eHat`, `vHat` and `rA`; the calls after it are the commitment computation with one
term `R[i]^mHat[i]` for each of these indices, the hash, and the responses with one
`crypto_compute_mHat(i)` for each of these indices; and `mHat[j]` of a disclosed index
`j` holds its old value after the randomisation step and at the end. -/
theorem constructProof_index_sets (P : Platform) (Z : Sizes) (credential : Credential)
    (s : ProofSession) :
    let U := undisclosed credential s
    let drawn := constructProof_randomise P Z credential s
    let final := constructProof P Z credential s
    (∀ i, i ∈ U ↔ i ≤ credential.size ∧ disclosed s i = 0) ∧
    drawn.trace = s.trace ++
      U.map (fun i => Call.generate_random (Loc.mHat i) Z.LENGTH_M_) ++
      [Call.generate_random Loc.eHat Z.LENGTH_E_,
       Call.generate_random Loc.vHat Z.LENGTH_V_,
       Call.generate_random Loc.rA (Z.LENGTH_R_A - 7)] ∧
    final.trace = drawn.trace ++
      [Call.modexp_special Loc.rA Loc.APrime Loc.number0,
       Call.modmul Loc.APrime Loc.A,
       Call.modexp_special Loc.vHat Loc.number0 Loc.number1,
       Call.modexp Loc.eHat Loc.APrime Loc.number1,
       Call.modmul Loc.number0 Loc.number1] ++
      U.flatMap (fun i =>
        [Call.modexp (Loc.mHat i) (Loc.R i) Loc.number1,
         Call.modmul Loc.number0 Loc.number1]) ++
      [Call.compute_hash final.list, Call.compute_eHat, Call.compute_vPrime,
       Call.compute_vHat] ++
      U.map (fun i => Call.compute_mHat i) ∧
    randomisedIndices (constructProof_calls P Z credential s) = U ∧
    commitmentIndices (constructProof_calls P Z credential s) = U ∧
    responseIndices (constructProof_calls P Z credential s) = U ∧
    (∀ j, disclosed s j ≠ 0 → drawn.mHat j = s.mHat j ∧ final.mHat j = s.mHat j) := by
  intro U drawn final
  obtain ⟨m1, m2, x1, eH, d, vH, hm1, hm2, hm, -, -, htrace, hfinal⟩ :=
    constructProof_eq P Z credential s
  obtain ⟨hr, hc, hp⟩ := constructProof_calls_indices P Z credential s
  refine ⟨mem_undisclosed credential s, htrace, ?_, hr, hc, hp, ?_⟩
  · simp only [final, drawn, htrace, U]
    rw [hfinal]
    simp
  · intro j hj
    have hjU : j ∉ undisclosed credential s :=
      fun hmem => hj ((mem_undisclosed credential s j).mp hmem).2
    constructor
    · simp only [drawn, hm]
      exact hm1 j hjU
    · simp only [final]
      rw [hfinal]
      exact hm2 j hjU

theorem selectAttributes_even_mask (credential : Credential) (selection : Nat)
    (session : ProofSession) (hbit : selection.testBit 0 = false) :
    selectAttributes credential selection session
      = (none, { session with disclose := selection }) := by
  have hloop := selectAttributes_loop_eq_none credential selection selectAttributes_probes
    (fun i _ => selectAttributes_invalid_of_even credential selection i hbit)
  simp [selectAttributes, hloop]

/-- C4 (the claim as stated fails): with `size = 4` and the accepted mask `0x14`, index
0 is among the indices that get a blinding value and a response, so the index set is
not `{1, 3}`. -/
theorem constructProof_mask_0x14_not_1_3 :
    ¬ (∀ i, (i ∈ randomisedIndices (constructProof_calls examplePlatform exampleSizes
          exampleCredential (selectAttributes exampleCredential 0x14 exampleSession).2) ∧
        i ∈ responseIndices (constructProof_calls examplePlatform exampleSizes
          exampleCredential (selectAttributes exampleCredential 0x14 exampleSession).2))
      ↔ (i = 1 ∨ i = 3)) := by
  intro h
  obtain ⟨hr, -, hp⟩ := constructProof_calls_indices examplePlatform exampleSizes
    exampleCredential (selectAttributes exampleCredential 0x14 exampleSession).2
  have hU : undisclosed exampleCredential
      (selectAttributes exampleCredential 0x14 exampleSession).2 = [0, 1, 3] := by
    decide
  rw [hr, hp, hU] at h
  have h0 := (h 0).mp ⟨by decide, by decide⟩
  omega

/-- C4 (amended): for a credential with `size = 4`, the mask `0x14` is accepted by
`selectAttributes`, and the indices for which `constructProof` then draws a blinding
value, and those for which it computes a response `mHat[i]`, are exactly 0, 1 and 3. -/
theorem constructProof_mask_0x14 (P : Platform) (Z : Sizes) (credential : Credential)
    (session : ProofSession) (hsize : credential.size = 4) :
    (selectAttributes credential 0x14 session).1 = none ∧
    randomisedIndices (constructProof_calls P Z credential
      (selectAttributes credential 0x14 session).2) = [0, 1, 3] ∧
    responseIndices (constructProof_calls P Z credential
      (selectAttributes credential 0x14 session).2) = [0, 1, 3] := by
  have hsel := selectAttributes_even_mask credential 0x14 session (by decide)
  obtain ⟨hr, -, hp⟩ := constructProof_calls_indices P Z credential
    (selectAttributes credential 0x14 session).2
  have hU : undisclosed credential (selectAttributes credential 0x14 session).2
      = [0, 1, 3] := by
    rw [hsel]
    simp only [undisclosed, disclosed, hsize]
    decide
  rw [hr, hp, hU, hsel]
  exact ⟨rfl, rfl, rfl⟩

theorem constructProof_mask_0x14_witness :
    exampleCredential.size = 4 ∧
    randomisedIndices (constructProof_calls examplePlatform exampleSizes exampleCredential
      (selectAttributes exampleCredential 0x14 exampleSession).2) = [0, 1, 3] :=
  ⟨rfl, (constructProof_mask_0x14 examplePlatform exampleSizes exampleCredential
    exampleSession rfl).2.1⟩

/-! ## Theorems: byte blocks -/

theorem foldl_bytes (l : List Byte) (acc : Nat) :
    l.foldl (fun acc b => acc * 256 + b.val) acc = acc * 256 ^ l.length + ofBytes l := by
  induction l generalizing acc with
  | nil => simp [ofBytes]
  | cons b rest ih =>
    simp only [List.foldl_cons, List.length_cons, ofBytes]
    rw [ih, ih (0 * 256 + b.val)]
    ring

theorem ofBytes_nil : ofBytes [] = 0 := rfl

theorem ofBytes_append (a b : List Byte) :
    ofBytes (a ++ b) = ofBytes a * 256 ^ b.length + ofBytes b := by
  simp only [ofBytes, List.foldl_append]
  rw [foldl_bytes]
  rfl

theorem ofBytes_singleton (b : Byte) : ofBytes [b] = b.val := by
  simp [ofBytes]

theorem ofBytes_lt (l : List Byte) : ofBytes l < 256 ^ l.length := by
  induction l using List.reverseRecOn with
  | nil => simp [ofBytes]
  | append_singleton rest b ih =>
    rw [ofBytes_append, ofBytes_singleton, List.length_append, List.length_singleton,
      pow_one, pow_succ]
    have hb : b.val < 256 := b.isLt
    have hle : (ofBytes rest + 1) * 256 ≤ 256 ^ rest.length * 256 :=
      Nat.mul_le_mul_right 256 ih
    omega

theorem length_toBytes (len x : Nat) : (toBytes len x).length = len := by
  induction len generalizing x with
  | zero => rfl
  | succ n ih => simp [toBytes, ih]

theorem ofBytes_toBytes (len x : Nat) : ofBytes (toBytes len x) = x % 256 ^ len := by
  induction len generalizing x with
  | zero => simp [toBytes, ofBytes, Nat.mod_one]
  | succ n ih =>
    rw [toBytes, ofBytes_append, ih, ofBytes_singleton, List.length_singleton, pow_one,
      pow_succ]
    show x / 256 % 256 ^ n * 256 + x % 256 = x % (256 ^ n * 256)
    rw [Nat.mul_comm (256 ^ n) 256, Nat.mod_mul, Nat.mul_comm]
    omega

theorem ofBytes_replicate_zero (len : Nat) : ofBytes (List.replicate len (0 : Byte)) = 0 := by
  induction len with
  | zero => rfl
  | succ n ih =>
    rw [List.replicate_succ', ofBytes_append, ih, ofBytes_singleton]
    simp

theorem ofBytes_take_drop (l : List Byte) (k : Nat) :
    ofBytes l = ofBytes (l.take k) * 256 ^ (l.drop k).length + ofBytes (l.drop k) := by
  conv_lhs => rw [← List.take_append_drop k l]
  exact ofBytes_append _ _

theorem length_readBlock (mem : List Byte) (addr len : Nat) (h : addr + len ≤ mem.length) :
    (readBlock mem addr len).length = len := by
  simp [readBlock]
  omega

theorem length_writeBlock (mem : List Byte) (addr : Nat) (block : List Byte)
    (h : addr + block.length ≤ mem.length) :
    (writeBlock mem addr block).length = mem.length := by
  simp [writeBlock]
  omega

theorem readBlock_writeBlock_same (mem : List Byte) (addr : Nat) (block : List Byte)
    (h : addr ≤ mem.length) :
    readBlock (writeBlock mem addr block) addr block.length = block := by
  simp [readBlock, writeBlock, List.drop_append_eq_append_drop, List.take_append_eq_append_take,
    Nat.min_eq_left h]

theorem readBlock_writeBlock_before (mem : List Byte) (addr : Nat) (block : List Byte)
    (a len : Nat) (h : addr ≤ mem.length) (hd : a + len ≤ addr) :
    readBlock (writeBlock mem addr block) a len = readBlock mem a len := by
  have h1 : a ≤ addr := by omega
  simp only [readBlock, writeBlock, List.append_assoc]
  rw [List.drop_append_of_le_length (by simp; omega),
    List.take_append_of_le_length (by simp; omega), List.drop_take, List.take_take]
  congr 1
  omega

theorem readBlock_writeBlock_after (mem : List Byte) (addr : Nat) (block : List Byte)
    (a len : Nat) (h : addr + block.length ≤ mem.length) (hd : addr + block.length ≤ a) :
    readBlock (writeBlock mem addr block) a len = readBlock mem a len := by
  simp only [readBlock, writeBlock]
  congr 1
  rw [List.drop_append_eq_append_drop, List.drop_append_eq_append_drop]
  have hlen : (List.take addr mem).length = addr := by
    rw [List.length_take]; omega
  have h1 : List.drop a (List.take addr mem) = [] :=
    List.drop_eq_nil_of_le (by omega)
  have h2 : List.drop (a - (List.take addr mem).length) block = [] :=
    List.drop_eq_nil_of_le (by omega)
  rw [h1, h2, List.nil_append, List.nil_append, List.drop_drop, List.length_append, hlen]
  congr 1
  omega

theorem ofBytes_readBlock_split (mem : List Byte) (a l1 l2 : Nat)
    (h : a + l1 + l2 ≤ mem.length) :
    ofBytes (readBlock mem a (l1 + l2))
      = ofBytes (readBlock mem a l1) * 256 ^ l2 + ofBytes (readBlock mem (a + l1) l2) := by
  have hsplit : readBlock mem a (l1 + l2) = readBlock mem a l1 ++ readBlock mem (a + l1) l2 := by
    simp only [readBlock]
    rw [List.take_add, List.drop_drop]
  rw [hsplit, ofBytes_append, length_readBlock mem (a + l1) l2 (by omega)]

theorem stackTop_append (stack block : List Byte) :
    stackTop (stack ++ block) block.length = block := by
  simp [stackTop]

theorem stackPop_append (stack block : List Byte) :
    stackPop (stack ++ block) block.length = stack := by
  simp [stackPop]

theorem ofBytes_stackTop_append (stack block : List Byte) (len : Nat)
    (h : len ≤ block.length) :
    ofBytes (stackTop (stack ++ block) len) = ofBytes block % 256 ^ len := by
  have htop : stackTop (stack ++ block) len = block.drop (block.length - len) := by
    simp only [stackTop, List.length_append]
    rw [List.drop_append_eq_append_drop, List.drop_eq_nil_of_le (by omega)]
    simp only [List.nil_append]
    congr 1
    omega
  rw [htop]
  have hsplit := ofBytes_take_drop block (block.length - len)
  have hlen : (block.drop (block.length - len)).length = len := by
    simp; omega
  rw [hlen] at hsplit
  have hlt := ofBytes_lt (block.drop (block.length - len))
  rw [hlen] at hlt
  rw [hsplit, Nat.mul_add_mod_of_lt hlt]

theorem mul_add_mod_mul (q r M B : Nat) (hM : 0 < M) (hr : r < B) :
    (q * B + r) % (M * B) = (q % M) * B + r := by
  have hq : M * (q / M) + q % M = q := Nat.div_add_mod q M
  have hlt : (q % M) * B + r < M * B := by
    have h1 : q % M + 1 ≤ M := Nat.mod_lt q hM
    have h2 : (q % M + 1) * B ≤ M * B := Nat.mul_le_mul_right B h1
    rw [Nat.add_mul, Nat.one_mul] at h2
    omega
  have hsplit : q * B + r = (q % M) * B + r + (M * B) * (q / M) := by
    conv_lhs => rw [← hq]
    ring
  rw [hsplit, Nat.add_mul_mod_self_left, Nat.mod_eq_of_lt hlt]

/-! ## Theorems: `crypto_compute_vPrime` -/

theorem PRIM_MULTIPLY_append (buffer stack a b : List Byte) (C : Bool) (flag len : Nat)
    (ha : a.length = len) (hb : b.length = len) :
    PRIM_MULTIPLY ⟨buffer, stack ++ a ++ b, C, flag⟩ len
      = ⟨buffer, stack ++ toBytes (2 * len) (ofBytes a * ofBytes b), C, flag⟩ := by
  subst ha
  have h2 : stackPop (stack ++ a ++ b) (2 * a.length) = stack := by
    have := stackPop_append stack (a ++ b)
    rw [List.length_append, hb, ← Nat.two_mul, ← List.append_assoc] at this
    exact this
  have htop : stackTop (stack ++ a ++ b) a.length = b := by
    rw [← hb]; exact stackTop_append _ _
  have hpop : stackPop (stack ++ a ++ b) a.length = stack ++ a := by
    rw [← hb]; exact stackPop_append _ _
  simp only [PRIM_MULTIPLY, h2, htop, hpop, stackTop_append]

theorem multiply_half (Z : Sizes) (e half : List Byte) (m : Machine)
    (he : e.length = Z.SIZE_E) (hhalf : half.length = Z.SIZE_R_A / 2)
    (hE : Z.SIZE_E ≤ Z.SIZE_R_A / 2) :
    PRIM_MULTIPLY (push (push (PUSHZ m (Z.SIZE_R_A / 2 - Z.SIZE_E)) (readBlock e 0 Z.SIZE_E))
        half) (Z.SIZE_R_A / 2)
      = { m with stack := m.stack ++
            toBytes (2 * (Z.SIZE_R_A / 2)) (ofBytes e * ofBytes half) } := by
  have hread : readBlock e 0 Z.SIZE_E = e := by
    simp [readBlock, ← he]
  have hpad : (List.replicate (Z.SIZE_R_A / 2 - Z.SIZE_E) (0 : Byte) ++ e).length
      = Z.SIZE_R_A / 2 := by
    simp [he]; omega
  have hval : ofBytes (List.replicate (Z.SIZE_R_A / 2 - Z.SIZE_E) (0 : Byte) ++ e)
      = ofBytes e := by
    rw [ofBytes_append, ofBytes_replicate_zero]; simp
  have := PRIM_MULTIPLY_append m.buffer m.stack
    (List.replicate (Z.SIZE_R_A / 2 - Z.SIZE_E) (0 : Byte) ++ e) half m.C m.flag
    (Z.SIZE_R_A / 2) hpad hhalf
  rw [hval] at this
  simp only [push, PUSHZ, hread]
  rw [← List.append_assoc] at this
  exact this

/-- The buffer after the first multiplication of `crypto_compute_vPrime` is stored. -/
theorem crypto_compute_vPrime_product_eq (Z : Sizes) (e rA : List Byte) (m : Machine)
    (he : e.length = Z.SIZE_E) (hrA : rA.length = Z.SIZE_R_A)
    (heven : Z.SIZE_R_A % 2 = 0) (hE : Z.SIZE_E ≤ Z.SIZE_R_A / 2) :
    crypto_compute_vPrime_product Z e rA m
      = ⟨writeBlock
            (writeBlock (writeBlock m.buffer 0 (List.replicate (Z.SIZE_V - Z.SIZE_R_A) 0))
              (Z.SIZE_V - Z.SIZE_R_A)
              (toBytes Z.SIZE_R_A (ofBytes e * ofBytes (rA.drop (Z.SIZE_R_A / 2)))))
            0
            (toBytes (Z.SIZE_V - Z.SIZE_R_A / 2)
              (ofBytes (readBlock
                (writeBlock (writeBlock m.buffer 0 (List.replicate (Z.SIZE_V - Z.SIZE_R_A) 0))
                  (Z.SIZE_V - Z.SIZE_R_A)
                  (toBytes Z.SIZE_R_A (ofBytes e * ofBytes (rA.drop (Z.SIZE_R_A / 2)))))
                0 (Z.SIZE_V - Z.SIZE_R_A / 2))
              + ofBytes (stackTop (m.stack ++
                  toBytes Z.SIZE_R_A (ofBytes e * ofBytes (rA.take (Z.SIZE_R_A / 2))))
                (Z.SIZE_V - Z.SIZE_R_A / 2)))),
          m.stack,
          decide (256 ^ (Z.SIZE_V - Z.SIZE_R_A / 2) ≤
              ofBytes (readBlock
                (writeBlock (writeBlock m.buffer 0 (List.replicate (Z.SIZE_V - Z.SIZE_R_A) 0))
                  (Z.SIZE_V - Z.SIZE_R_A)
                  (toBytes Z.SIZE_R_A (ofBytes e * ofBytes (rA.drop (Z.SIZE_R_A / 2)))))
                0 (Z.SIZE_V - Z.SIZE_R_A / 2))
              + ofBytes (stackTop (m.stack ++
                  toBytes Z.SIZE_R_A (ofBytes e * ofBytes (rA.take (Z.SIZE_R_A / 2))))
                (Z.SIZE_V - Z.SIZE_R_A / 2))),
          m.flag⟩ := by
  have h2 : 2 * (Z.SIZE_R_A / 2) = Z.SIZE_R_A := by omega
  have hlo : (readBlock rA (Z.SIZE_R_A / 2) (Z.SIZE_R_A / 2)) = rA.drop (Z.SIZE_R_A / 2) := by
    simp only [readBlock]
    exact List.take_of_length_le (by simp [hrA]; omega)
  have hhi : (readBlock rA 0 (Z.SIZE_R_A / 2)) = rA.take (Z.SIZE_R_A / 2) := rfl
  have hlolen : (rA.drop (Z.SIZE_R_A / 2)).length = Z.SIZE_R_A / 2 := by
    simp [hrA]; omega
  have hhilen : (rA.take (Z.SIZE_R_A / 2)).length = Z.SIZE_R_A / 2 := by
    simp [hrA]; omega
  unfold crypto_compute_vPrime_product
  simp only [hlo, hhi]
  rw [multiply_half Z e _ _ he hlolen hE]
  simp only [STORE]
  rw [multiply_half Z e _ _ he hhilen hE]
  simp only [h2, CLEARN, ADDN, POPN]
  have hlen : (toBytes Z.SIZE_R_A (ofBytes e * ofBytes (rA.drop (Z.SIZE_R_A / 2)))).length
      = Z.SIZE_R_A := length_toBytes _ _
  have hlen2 : (toBytes Z.SIZE_R_A (ofBytes e * ofBytes (rA.take (Z.SIZE_R_A / 2)))).length
      = Z.SIZE_R_A := length_toBytes _ _
  have htop := stackTop_append m.stack
    (toBytes Z.SIZE_R_A (ofBytes e * ofBytes (rA.drop (Z.SIZE_R_A / 2))))
  have hpop := stackPop_append m.stack
    (toBytes Z.SIZE_R_A (ofBytes e * ofBytes (rA.drop (Z.SIZE_R_A / 2))))
  have hpop2 := stackPop_append m.stack
    (toBytes Z.SIZE_R_A (ofBytes e * ofBytes (rA.take (Z.SIZE_R_A / 2))))
  rw [hlen] at htop hpop
  rw [hlen2] at hpop2
  simp only [htop, hpop, hpop2]

/-- What the first half of `crypto_compute_vPrime` leaves: the `SIZE_V` bytes of the
buffer hold `e * rA`, and the stack and `flag` are as before. -/
theorem crypto_compute_vPrime_product_value (Z : Sizes) (e rA : List Byte) (m : Machine)
    (he : e.length = Z.SIZE_E) (hrA : rA.length = Z.SIZE_R_A)
    (heven : Z.SIZE_R_A % 2 = 0) (hE : Z.SIZE_E ≤ Z.SIZE_R_A / 2)
    (hRAV : Z.SIZE_R_A ≤ Z.SIZE_V) (hL : Z.SIZE_V - Z.SIZE_R_A / 2 ≤ Z.SIZE_R_A)
    (hbuf : Z.SIZE_V ≤ m.buffer.length) :
    (crypto_compute_vPrime_product Z e rA m).buffer.length = m.buffer.length ∧
    ofBytes (readBlock (crypto_compute_vPrime_product Z e rA m).buffer 0 Z.SIZE_V)
      = (ofBytes e * ofBytes rA) % 256 ^ Z.SIZE_V ∧
    (crypto_compute_vPrime_product Z e rA m).stack = m.stack ∧
    (crypto_compute_vPrime_product Z e rA m).flag = m.flag := by
  rw [crypto_compute_vPrime_product_eq Z e rA m he hrA heven hE]
  simp only
  generalize hb1 : writeBlock m.buffer 0 (List.replicate (Z.SIZE_V - Z.SIZE_R_A) 0) = b1
  generalize hPlo : toBytes Z.SIZE_R_A (ofBytes e * ofBytes (rA.drop (Z.SIZE_R_A / 2))) = Plo
  generalize hPhi : toBytes Z.SIZE_R_A (ofBytes e * ofBytes (rA.take (Z.SIZE_R_A / 2))) = Phi
  generalize hb2 : writeBlock b1 (Z.SIZE_V - Z.SIZE_R_A) Plo = b2
  generalize hsum : ofBytes (readBlock b2 0 (Z.SIZE_V - Z.SIZE_R_A / 2))
    + ofBytes (stackTop (m.stack ++ Phi) (Z.SIZE_V - Z.SIZE_R_A / 2)) = sum
  -- lengths
  have hzlen : (List.replicate (Z.SIZE_V - Z.SIZE_R_A) (0 : Byte)).length
      = Z.SIZE_V - Z.SIZE_R_A := List.length_replicate _ _
  have hPlolen : Plo.length = Z.SIZE_R_A := by rw [← hPlo]; exact length_toBytes _ _
  have hPhilen : Phi.length = Z.SIZE_R_A := by rw [← hPhi]; exact length_toBytes _ _
  have hb1len : b1.length = m.buffer.length := by
    rw [← hb1]; exact length_writeBlock _ _ _ (by rw [hzlen]; omega)
  have hb2len : b2.length = m.buffer.length := by
    rw [← hb2, length_writeBlock _ _ _ (by rw [hPlolen, hb1len]; omega), hb1len]
  have hTlen : (toBytes (Z.SIZE_V - Z.SIZE_R_A / 2) sum).length = Z.SIZE_V - Z.SIZE_R_A / 2 :=
    length_toBytes _ _
  have hb3len : (writeBlock b2 0 (toBytes (Z.SIZE_V - Z.SIZE_R_A / 2) sum)).length
      = m.buffer.length := by
    rw [length_writeBlock _ _ _ (by rw [hTlen, hb2len]; omega), hb2len]
  refine ⟨hb3len, ?_, trivial, trivial⟩
  -- the two halves of rA
  have hrAsplit : ofBytes rA = ofBytes (rA.take (Z.SIZE_R_A / 2)) * 256 ^ (Z.SIZE_R_A / 2)
      + ofBytes (rA.drop (Z.SIZE_R_A / 2)) := by
    have := ofBytes_take_drop rA (Z.SIZE_R_A / 2)
    rw [List.length_drop, hrA, show Z.SIZE_R_A - Z.SIZE_R_A / 2 = Z.SIZE_R_A / 2 by omega]
      at this
    exact this
  have hlolt : ofBytes (rA.drop (Z.SIZE_R_A / 2)) < 256 ^ (Z.SIZE_R_A / 2) := by
    have := ofBytes_lt (rA.drop (Z.SIZE_R_A / 2))
    rw [List.length_drop, hrA, show Z.SIZE_R_A - Z.SIZE_R_A / 2 = Z.SIZE_R_A / 2 by omega]
      at this
    exact this
  have helt : ofBytes e < 256 ^ (Z.SIZE_R_A / 2) := by
    have := ofBytes_lt e
    rw [he] at this
    exact lt_of_lt_of_le this (Nat.pow_le_pow_right (by decide) hE)
  -- the value of the buffer after the first multiplication
  have hPloval : ofBytes Plo = ofBytes e * ofBytes (rA.drop (Z.SIZE_R_A / 2)) := by
    rw [← hPlo, ofBytes_toBytes]
    apply Nat.mod_eq_of_lt
    have hpow : (256 : Nat) ^ Z.SIZE_R_A = 256 ^ (Z.SIZE_R_A / 2) * 256 ^ (Z.SIZE_R_A / 2) := by
      rw [← pow_add]; congr 1; omega
    rw [hpow]
    exact Nat.mul_lt_mul'' helt hlolt
  have hX : ofBytes (readBlock b2 0 Z.SIZE_V)
      = ofBytes e * ofBytes (rA.drop (Z.SIZE_R_A / 2)) := by
    have hsplit := ofBytes_readBlock_split b2 0 (Z.SIZE_V - Z.SIZE_R_A) Z.SIZE_R_A
      (by rw [hb2len]; omega)
    rw [show Z.SIZE_V - Z.SIZE_R_A + Z.SIZE_R_A = Z.SIZE_V by omega, Nat.zero_add] at hsplit
    have hzero : readBlock b2 0 (Z.SIZE_V - Z.SIZE_R_A)
        = List.replicate (Z.SIZE_V - Z.SIZE_R_A) 0 := by
      rw [← hb2, readBlock_writeBlock_before _ _ _ _ _ (by rw [hb1len]; omega) (by omega),
        ← hb1]
      have := readBlock_writeBlock_same m.buffer 0
        (List.replicate (Z.SIZE_V - Z.SIZE_R_A) 0) (Nat.zero_le _)
      rw [hzlen] at this
      exact this
    have hlow : readBlock b2 (Z.SIZE_V - Z.SIZE_R_A) Z.SIZE_R_A = Plo := by
      have := readBlock_writeBlock_same b1 (Z.SIZE_V - Z.SIZE_R_A) Plo
        (by rw [hb1len]; omega)
      rw [hPlolen, hb2] at this
      exact this
    rw [hsplit, hzero, hlow, ofBytes_replicate_zero, hPloval]
    simp
  -- the buffer after the addition of the second product
  have hVsplit : Z.SIZE_V = (Z.SIZE_V - Z.SIZE_R_A / 2) + Z.SIZE_R_A / 2 := by omega
  have hX2 := ofBytes_readBlock_split b2 0 (Z.SIZE_V - Z.SIZE_R_A / 2) (Z.SIZE_R_A / 2)
    (by rw [hb2len]; omega)
  rw [← hVsplit, Nat.zero_add, hX] at hX2
  have hrlt : ofBytes (readBlock b2 (Z.SIZE_V - Z.SIZE_R_A / 2) (Z.SIZE_R_A / 2))
      < 256 ^ (Z.SIZE_R_A / 2) := by
    have := ofBytes_lt (readBlock b2 (Z.SIZE_V - Z.SIZE_R_A / 2) (Z.SIZE_R_A / 2))
    rw [length_readBlock _ _ _ (by rw [hb2len]; omega)] at this
    exact this
  have hres := ofBytes_readBlock_split (writeBlock b2 0 (toBytes (Z.SIZE_V - Z.SIZE_R_A / 2) sum))
    0 (Z.SIZE_V - Z.SIZE_R_A / 2) (Z.SIZE_R_A / 2) (by rw [hb3len]; omega)
  rw [← hVsplit, Nat.zero_add] at hres
  have hhigh : readBlock (writeBlock b2 0 (toBytes (Z.SIZE_V - Z.SIZE_R_A / 2) sum)) 0
      (Z.SIZE_V - Z.SIZE_R_A / 2) = toBytes (Z.SIZE_V - Z.SIZE_R_A / 2) sum := by
    have := readBlock_writeBlock_same b2 0 (toBytes (Z.SIZE_V - Z.SIZE_R_A / 2) sum)
      (Nat.zero_le _)
    rw [hTlen] at this
    exact this
  have hrest : readBlock (writeBlock b2 0 (toBytes (Z.SIZE_V - Z.SIZE_R_A / 2) sum))
      (Z.SIZE_V - Z.SIZE_R_A / 2) (Z.SIZE_R_A / 2)
      = readBlock b2 (Z.SIZE_V - Z.SIZE_R_A / 2) (Z.SIZE_R_A / 2) :=
    readBlock_writeBlock_after _ _ _ _ _ (by rw [hTlen, hb2len]; omega) (by rw [hTlen]; omega)
  rw [hres, hhigh, hrest, ofBytes_toBytes]
  have htop : ofBytes (stackTop (m.stack ++ Phi) (Z.SIZE_V - Z.SIZE_R_A / 2))
      = (ofBytes e * ofBytes (rA.take (Z.SIZE_R_A / 2))) % 256 ^ (Z.SIZE_V - Z.SIZE_R_A / 2) := by
    rw [ofBytes_stackTop_append _ _ _ (by rw [hPhilen]; exact hL), ← hPhi, ofBytes_toBytes]
    exact Nat.mod_mod_of_dvd _ (pow_dvd_pow 256 hL)
  rw [← mul_add_mod_mul _ _ _ _ (pow_pos (by decide) _) hrlt, ← pow_add, ← hVsplit, ← hsum,
    htop, Nat.add_mul, Nat.add_right_comm, ← hX2]
  have hmul : (ofBytes e * ofBytes (rA.take (Z.SIZE_R_A / 2)))
        % 256 ^ (Z.SIZE_V - Z.SIZE_R_A / 2) * 256 ^ (Z.SIZE_R_A / 2)
      = (ofBytes e * ofBytes (rA.take (Z.SIZE_R_A / 2)) * 256 ^ (Z.SIZE_R_A / 2))
        % 256 ^ Z.SIZE_V := by
    conv_rhs => rw [hVsplit, pow_add]
    rw [Nat.mul_mod_mul_right]
  rw [hmul, Nat.add_mod_mod, hrAsplit]
  congr 1
  ring

theorem sub_halves (M B VH VL BH BL : Nat) (hM : 0 < M) (hVL : VL < B) (hBL : BL < B)
    (hBH : BH < M) :
    (((VH + M - (if VL < BL then (BH + 1) % M else BH)) % M * B + (VL + B - BL) % B : Nat)
        : Int)
      = (((VH * B + VL : Nat) : Int) - ((BH * B + BL : Nat) : Int)) % ((M * B : Nat) : Int) := by
  have hB : 0 < B := by omega
  rw [← mul_add_mod_mul _ _ _ _ hM (Nat.mod_lt _ hB), Int.natCast_mod]
  by_cases hC : VL < BL
  · have hr : (VL + B - BL) % B = VL + B - BL := Nat.mod_eq_of_lt (by omega)
    rw [if_pos hC, hr]
    by_cases hlast : BH + 1 < M
    · rw [Nat.mod_eq_of_lt hlast]
      have hq : ((VH + M - (BH + 1) : Nat) : Int) = VH + M - BH - 1 := by omega
      have hr2 : ((VL + B - BL : Nat) : Int) = VL + B - BL := by omega
      have : (((VH + M - (BH + 1)) * B + (VL + B - BL) : Nat) : Int)
          = (((VH * B + VL : Nat) : Int) - ((BH * B + BL : Nat) : Int))
            + 1 * ((M * B : Nat) : Int) := by
        push_cast [hq, hr2]
        ring
      rw [this, Int.add_mul_emod_self]
    · have hBHM : BH + 1 = M := by omega
      rw [hBHM, Nat.mod_self, Nat.sub_zero]
      have hr2 : ((VL + B - BL : Nat) : Int) = VL + B - BL := by omega
      have hMI : (M : Int) = BH + 1 := by omega
      have : (((VH + M) * B + (VL + B - BL) : Nat) : Int)
          = (((VH * B + VL : Nat) : Int) - ((BH * B + BL : Nat) : Int))
            + 2 * ((M * B : Nat) : Int) := by
        push_cast [hr2]
        rw [hMI]
        ring
      rw [this, Int.add_mul_emod_self]
  · have hr : (VL + B - BL) % B = VL - BL := by
      rw [show VL + B - BL = VL - BL + B by omega, Nat.add_mod_right]
      exact Nat.mod_eq_of_lt (by omega)
    rw [if_neg hC, hr]
    have hq : ((VH + M - BH : Nat) : Int) = VH + M - BH := by omega
    have hr2 : ((VL - BL : Nat) : Int) = VL - BL := by omega
    have : (((VH + M - BH) * B + (VL - BL) : Nat) : Int)
        = (((VH * B + VL : Nat) : Int) - ((BH * B + BL : Nat) : Int))
          + 1 * ((M * B : Nat) : Int) := by
      push_cast [hq, hr2]
      ring
    rw [this, Int.add_mul_emod_self]

/-- What the second half of `crypto_compute_vPrime` leaves: the `SIZE_V` bytes of the
buffer hold `v` minus the value they held, modulo `256 ^ SIZE_V`. -/
theorem crypto_compute_vPrime_subtract_value (Z : Sizes) (v : List Byte) (m : Machine)
    (hv : v.length = Z.SIZE_V) (hodd : Z.SIZE_V % 2 = 1)
    (hbuf : Z.SIZE_V ≤ m.buffer.length) :
    ((ofBytes (readBlock (crypto_compute_vPrime_subtract Z v m).buffer 0 Z.SIZE_V) : Nat) : Int)
      = ((ofBytes v : Nat) - (ofBytes (readBlock m.buffer 0 Z.SIZE_V) : Nat) : Int)
        % ((256 ^ Z.SIZE_V : Nat) : Int) := by
  have hV : Z.SIZE_V = Z.SIZE_V / 2 + (Z.SIZE_V / 2 + 1) := by omega
  generalize hk : Z.SIZE_V / 2 = k at hV
  -- the halves of v and of the buffer
  have hvread : readBlock v 0 Z.SIZE_V = v := by simp [readBlock, ← hv]
  have hvsplit := ofBytes_readBlock_split v 0 k (k + 1) (by rw [hv]; omega)
  rw [← hV, hvread, Nat.zero_add] at hvsplit
  have hbsplit := ofBytes_readBlock_split m.buffer 0 k (k + 1) (by omega)
  rw [← hV, Nat.zero_add] at hbsplit
  have hVL : ofBytes (readBlock v k (k + 1)) < 256 ^ (k + 1) := by
    have := ofBytes_lt (readBlock v k (k + 1))
    rw [length_readBlock _ _ _ (by rw [hv]; omega)] at this
    exact this
  have hBL : ofBytes (readBlock m.buffer k (k + 1)) < 256 ^ (k + 1) := by
    have := ofBytes_lt (readBlock m.buffer k (k + 1))
    rw [length_readBlock _ _ _ (by omega)] at this
    exact this
  have hBH : ofBytes (readBlock m.buffer 0 k) < 256 ^ k := by
    have := ofBytes_lt (readBlock m.buffer 0 k)
    rw [length_readBlock _ _ _ (by omega)] at this
    exact this
  -- the buffer after the low subtraction
  generalize hb4 : writeBlock m.buffer k (toBytes (k + 1)
    (ofBytes (readBlock v k (k + 1)) + 256 ^ (k + 1) - ofBytes (readBlock m.buffer k (k + 1))))
    = b4
  have hlowlen : (toBytes (k + 1) (ofBytes (readBlock v k (k + 1)) + 256 ^ (k + 1)
      - ofBytes (readBlock m.buffer k (k + 1)))).length = k + 1 := length_toBytes _ _
  have hb4len : b4.length = m.buffer.length := by
    rw [← hb4]; exact length_writeBlock _ _ _ (by rw [hlowlen]; omega)
  have hb4high : readBlock b4 0 k = readBlock m.buffer 0 k := by
    rw [← hb4]; exact readBlock_writeBlock_before _ _ _ _ _ (by omega) (by omega)
  have hb4low : ofBytes (readBlock b4 k (k + 1))
      = (ofBytes (readBlock v k (k + 1)) + 256 ^ (k + 1)
        - ofBytes (readBlock m.buffer k (k + 1))) % 256 ^ (k + 1) := by
    have := readBlock_writeBlock_same m.buffer k (toBytes (k + 1)
      (ofBytes (readBlock v k (k + 1)) + 256 ^ (k + 1)
        - ofBytes (readBlock m.buffer k (k + 1)))) (by omega)
    rw [hlowlen, hb4] at this
    rw [this, ofBytes_toBytes]
  -- the buffer after the increment
  generalize hb5 : (if ofBytes (readBlock v k (k + 1)) < ofBytes (readBlock m.buffer k (k + 1))
    then writeBlock b4 0 (toBytes k (ofBytes (readBlock b4 0 k) + 1)) else b4) = b5
  have hinclen : (toBytes k (ofBytes (readBlock b4 0 k) + 1)).length = k := length_toBytes _ _
  have hb5len : b5.length = m.buffer.length := by
    rw [← hb5]
    split
    · rw [length_writeBlock _ _ _ (by rw [hinclen, hb4len]; omega), hb4len]
    · exact hb4len
  have hb5low : readBlock b5 k (k + 1) = readBlock b4 k (k + 1) := by
    rw [← hb5]
    split
    · exact readBlock_writeBlock_after _ _ _ _ _ (by rw [hinclen, hb4len]; omega)
        (by rw [hinclen]; omega)
    · rfl
  have hb5high : ofBytes (readBlock b5 0 k)
      = if ofBytes (readBlock v k (k + 1)) < ofBytes (readBlock m.buffer k (k + 1))
        then (ofBytes (readBlock m.buffer 0 k) + 1) % 256 ^ k
        else ofBytes (readBlock m.buffer 0 k) := by
    rw [← hb5]
    split
    · have := readBlock_writeBlock_same b4 0 (toBytes k (ofBytes (readBlock b4 0 k) + 1))
        (Nat.zero_le _)
      rw [hinclen] at this
      rw [this, ofBytes_toBytes, hb4high]
    · rw [hb4high]
  -- the final buffer
  have hfinal : (crypto_compute_vPrime_subtract Z v m).buffer
      = writeBlock b5 0 (toBytes k (ofBytes (readBlock v 0 k) + 256 ^ k
          - ofBytes (readBlock b5 0 k))) := by
    simp only [crypto_compute_vPrime_subtract, SUBN, CFlag, INCN, hk]
    rw [hb4]
    by_cases hC : ofBytes (readBlock v k (k + 1)) < ofBytes (readBlock m.buffer k (k + 1))
    · simp [hC, ← hb5]
    · simp [hC, ← hb5]
  have hhilen : (toBytes k (ofBytes (readBlock v 0 k) + 256 ^ k
      - ofBytes (readBlock b5 0 k))).length = k := length_toBytes _ _
  have hres := ofBytes_readBlock_split (writeBlock b5 0 (toBytes k
    (ofBytes (readBlock v 0 k) + 256 ^ k - ofBytes (readBlock b5 0 k)))) 0 k (k + 1)
    (by rw [length_writeBlock _ _ _ (by rw [hhilen, hb5len]; omega), hb5len]; omega)
  rw [← hV, Nat.zero_add] at hres
  have hreshigh := readBlock_writeBlock_same b5 0 (toBytes k
    (ofBytes (readBlock v 0 k) + 256 ^ k - ofBytes (readBlock b5 0 k))) (Nat.zero_le _)
  rw [hhilen] at hreshigh
  have hreslow : readBlock (writeBlock b5 0 (toBytes k
      (ofBytes (readBlock v 0 k) + 256 ^ k - ofBytes (readBlock b5 0 k)))) k (k + 1)
      = readBlock b5 k (k + 1) :=
    readBlock_writeBlock_after _ _ _ _ _ (by rw [hhilen, hb5len]; omega)
      (by rw [hhilen]; omega)
  rw [hfinal, hres, hreshigh, hreslow, hb5low, hb4low, ofBytes_toBytes, hb5high, hvsplit,
    hbsplit]
  have hpow : (256 : Nat) ^ Z.SIZE_V = 256 ^ k * 256 ^ (k + 1) := by
    rw [← pow_add, ← hV]
  rw [hpow]
  exact sub_halves (256 ^ k) (256 ^ (k + 1)) _ _ _ _ (pow_pos (by decide) _) hVL hBL hBH

/-- C2: for byte arrays `e`, `rA` and `v` of `SIZE_E`, `SIZE_R_A` and `SIZE_V` bytes,
whatever the buffer and the stack held before, `crypto_compute_vPrime` leaves in the
first `SIZE_V` bytes of the buffer the value `(v - e * rA) mod 2^(8 * SIZE_V)`, which is
the integer `v - e * rA` whenever `e * rA <= v`.  The sizes are those the byte layout of
the function asks for: `SIZE_R_A` even with `SIZE_E <= SIZE_R_A / 2` (the padding of
`e`), `SIZE_R_A <= SIZE_V` (the cleared bytes), `SIZE_V - SIZE_R_A / 2 <= SIZE_R_A` (the
addition reads bytes of the product only) and `SIZE_V` odd (the halves of `SIZE_V / 2`
and `SIZE_V / 2 + 1` bytes make up the buffer). -/
theorem crypto_compute_vPrime_value (Z : Sizes) (e rA v : List Byte) (m : Machine)
    (he : e.length = Z.SIZE_E) (hrA : rA.length = Z.SIZE_R_A) (hv : v.length = Z.SIZE_V)
    (heven : Z.SIZE_R_A % 2 = 0) (hE : Z.SIZE_E ≤ Z.SIZE_R_A / 2)
    (hRAV : Z.SIZE_R_A ≤ Z.SIZE_V) (hL : Z.SIZE_V - Z.SIZE_R_A / 2 ≤ Z.SIZE_R_A)
    (hodd : Z.SIZE_V % 2 = 1) (hbuf : Z.SIZE_V ≤ m.buffer.length) :
    ((ofBytes ((crypto_compute_vPrime Z e rA v m).buffer.take Z.SIZE_V) : Nat) : Int)
      = ((ofBytes v : Int) - (ofBytes e : Int) * (ofBytes rA : Int))
        % (2 : Int) ^ (8 * Z.SIZE_V) ∧
    (ofBytes e * ofBytes rA ≤ ofBytes v →
      ofBytes ((crypto_compute_vPrime Z e rA v m).buffer.take Z.SIZE_V)
        = ofBytes v - ofBytes e * ofBytes rA) := by
  obtain ⟨hlen, hval, -, -⟩ := crypto_compute_vPrime_product_value Z e rA m he hrA heven hE
    hRAV hL hbuf
  have hsub := crypto_compute_vPrime_subtract_value Z v
    (crypto_compute_vPrime_product Z e rA m) hv hodd (by rw [hlen]; exact hbuf)
  have htake : (crypto_compute_vPrime Z e rA v m).buffer.take Z.SIZE_V
      = readBlock (crypto_compute_vPrime_subtract Z v
          (crypto_compute_vPrime_product Z e rA m)).buffer 0 Z.SIZE_V := rfl
  have hpow : ((256 ^ Z.SIZE_V : Nat) : Int) = (2 : Int) ^ (8 * Z.SIZE_V) := by
    push_cast
    rw [pow_mul]
    norm_num
  have hmain : ((ofBytes ((crypto_compute_vPrime Z e rA v m).buffer.take Z.SIZE_V) : Nat) : Int)
      = ((ofBytes v : Int) - (ofBytes e : Int) * (ofBytes rA : Int))
        % (2 : Int) ^ (8 * Z.SIZE_V) := by
    rw [htake, hsub, hval, Int.natCast_mod, hpow, Int.sub_emod, Int.emod_emod_of_dvd _ (dvd_refl _),
      ← Int.sub_emod]
    push_cast
    rfl
  refine ⟨hmain, ?_⟩
  intro hle
  have hvlt : ofBytes v < 256 ^ Z.SIZE_V := by
    have := ofBytes_lt v
    rw [hv] at this
    exact this
  have hnonneg : (0 : Int) ≤ (ofBytes v : Int) - (ofBytes e : Int) * (ofBytes rA : Int) := by
    have : ((ofBytes e * ofBytes rA : Nat) : Int) ≤ (ofBytes v : Int) := by exact_mod_cast hle
    push_cast at this
    omega
  have hlt : (ofBytes v : Int) - (ofBytes e : Int) * (ofBytes rA : Int)
      < (2 : Int) ^ (8 * Z.SIZE_V) := by
    rw [← hpow]
    have h1 : ((ofBytes v : Nat) : Int) < ((256 ^ Z.SIZE_V : Nat) : Int) := by
      exact_mod_cast hvlt
    have h2 : (0 : Int) ≤ (ofBytes e : Int) * (ofBytes rA : Int) := by positivity
    omega
  rw [Int.emod_eq_of_lt hnonneg hlt] at hmain
  have hcast : ((ofBytes v - ofBytes e * ofBytes rA : Nat) : Int)
      = (ofBytes v : Int) - (ofBytes e : Int) * (ofBytes rA : Int) := by
    rw [Nat.cast_sub hle]
    push_cast
    rfl
  exact_mod_cast hmain.trans hcast.symm

theorem crypto_compute_vPrime_value_witness :
    ofBytes ((crypto_compute_vPrime exampleSizes [7] [1, 200] [0x50, 0x01, 0x02]
      ⟨[9, 9, 9, 9], [5, 5], false, 0⟩).buffer.take exampleSizes.SIZE_V)
      = ofBytes [0x50, 0x01, 0x02] - ofBytes [7] * ofBytes [1, 200] :=
  (crypto_compute_vPrime_value exampleSizes [7] [1, 200] [0x50, 0x01, 0x02]
    ⟨[9, 9, 9, 9], [5, 5], false, 0⟩ rfl rfl rfl (by decide) (by decide) (by decide)
    (by decide) (by decide) (by decide)).2 (by decide)

/-! ## Theorems: `selectAttributes`, acceptance -/

theorem selectAttributes_probes_bounds :
    ∀ i ∈ selectAttributes_probes, i ≠ 0 ∧ i ≤ 0x4000 := by
  rw [selectAttributes_probes_eq]
  decide

theorem selectAttributes_invalid_of_large_size (credential : Credential)
    (selection i : Nat) (hi : i ≠ 0) (hsize : i ≤ credential.size) :
    selectAttributes_invalid credential selection i = false := by
  simp [selectAttributes_invalid, hi, Nat.not_lt.mpr hsize]

theorem selectAttributes_status (credential : Credential) (selection : Nat)
    (session : ProofSession) :
    (selectAttributes credential selection session).1
      = selectAttributes_loop credential selection selectAttributes_probes := by
  unfold selectAttributes
  cases selectAttributes_loop credential selection selectAttributes_probes <;> rfl

/-- C14: when `selectAttributes` returns normally, the session it leaves is the old one
with `disclose` set to the mask, every other field as before; the credential is only
read. -/
theorem selectAttributes_accepted (credential : Credential) (selection : Nat)
    (session : ProofSession)
    (h : (selectAttributes credential selection session).1 = none) :
    (selectAttributes credential selection session).2
      = { session with disclose := selection } ∧
    (selectAttributes credential selection session).2.disclose = selection := by
  rw [selectAttributes_status] at h
  simp [selectAttributes, h]

theorem selectAttributes_accepted_witness :
    (selectAttributes exampleCredential 0x14 exampleSession).1 = none ∧
    (selectAttributes exampleCredential 0x14 exampleSession).2.disclose = 0x14 :=
  ⟨by decide, (selectAttributes_accepted exampleCredential 0x14 exampleSession
    (by decide)).2⟩

/-- C15: `selectAttributes` ends with the wrong-data status word exactly when bit 0 of
the mask is set and `credential->size` is below `0x4000`, that is below one of the
probes `2^k`, `k <= 14`; otherwise it returns normally, and every even mask is accepted
and recorded. -/
theorem selectAttributes_rejects_iff (credential : Credential) (selection : Nat)
    (session : ProofSession) :
    ((selectAttributes credential selection session).1 = some ISO7816_SW_WRONG_DATA
      ↔ selection.testBit 0 = true ∧ credential.size < 0x4000) ∧
    ((selectAttributes credential selection session).1 = none
      ↔ ¬ (selection.testBit 0 = true ∧ credential.size < 0x4000)) ∧
    (credential.size < 0x4000 ↔ ∃ k, k ≤ 14 ∧ credential.size < 2 ^ k) ∧
    (selection.testBit 0 = false →
      selectAttributes credential selection session
        = (none, { session with disclose := selection })) := by
  have hyes : selection.testBit 0 = true ∧ credential.size < 0x4000 →
      (selectAttributes credential selection session).1 = some ISO7816_SW_WRONG_DATA := by
    rintro ⟨hbit, hsize⟩
    rw [selectAttributes_status]
    exact selectAttributes_loop_eq_some credential selection selectAttributes_probes
      0x4000 (by rw [selectAttributes_probes_eq]; decide)
      (selectAttributes_invalid_of_odd credential selection 0x4000 hbit (by decide) hsize)
  have hno : ¬ (selection.testBit 0 = true ∧ credential.size < 0x4000) →
      (selectAttributes credential selection session).1 = none := by
    intro hnot
    rw [selectAttributes_status]
    apply selectAttributes_loop_eq_none
    intro i hi
    by_cases hbit : selection.testBit 0 = true
    · have hsize : 0x4000 ≤ credential.size := by
        by_contra hlt
        exact hnot ⟨hbit, by omega⟩
      obtain ⟨hne, hle⟩ := selectAttributes_probes_bounds i hi
      exact selectAttributes_invalid_of_large_size credential selection i hne
        (le_trans hle hsize)
    · exact selectAttributes_invalid_of_even credential selection i (by simpa using hbit)
  refine ⟨⟨?_, hyes⟩, ⟨?_, hno⟩, ⟨?_, ?_⟩, ?_⟩
  · intro hrej
    by_contra hnot
    rw [hno hnot] at hrej
    cases hrej
  · intro hacc hboth
    rw [hyes hboth] at hacc
    cases hacc
  · intro hsize
    exact ⟨14, le_refl _, by norm_num; exact hsize⟩
  · rintro ⟨k, hk, hlt⟩
    have : 2 ^ k ≤ 2 ^ 14 := Nat.pow_le_pow_right (by decide) hk
    norm_num at this
    omega
  · exact selectAttributes_even_mask credential selection session


/-! ## Theorems: `constructProof`, re-randomisation and challenge -/

theorem constructProof_responses_frame (P : Platform) (Z : Sizes) (credential : Credential)
    (s : ProofSession) :
    (constructProof_responses P Z credential s).list = s.list ∧
    (constructProof_responses P Z credential s).challenge = s.challenge ∧
    (constructProof_responses P Z credential s).APrime = s.APrime ∧
    (constructProof_responses P Z credential s).rA = s.rA := by
  obtain ⟨m, eH, d, vH, -, h⟩ := constructProof_responses_eq P Z credential s
  rw [h]
  exact ⟨rfl, rfl, rfl, rfl⟩

theorem constructProof_ZTilde_frame (P : Platform) (credential : Credential)
    (s : ProofSession) :
    (constructProof_ZTilde P credential s).context = s.context ∧
    (constructProof_ZTilde P credential s).nonce = s.nonce ∧
    (constructProof_ZTilde P credential s).APrime = s.APrime ∧
    (constructProof_ZTilde P credential s).rA = s.rA := by
  obtain ⟨x1, h⟩ := constructProof_ZTilde_eq P credential s
  rw [h]
  exact ⟨rfl, rfl, rfl, rfl⟩

theorem constructProof_randomise_frame (P : Platform) (Z : Sizes) (credential : Credential)
    (s : ProofSession) :
    (constructProof_randomise P Z credential s).context = s.context ∧
    (constructProof_randomise P Z credential s).nonce = s.nonce ∧
    (constructProof_randomise P Z credential s).rA
      = P.random (s.drawn + (undisclosed credential s).length + 2)
        % 2 ^ (Z.LENGTH_R_A - 7) := by
  obtain ⟨m, -, h⟩ := constructProof_randomise_eq P Z credential s
  rw [h]
  exact ⟨rfl, rfl, rfl⟩

/-- C11: after `constructProof` the field `APrime` holds `A * S^rA mod n`, with `rA` the
value the randomisation step drew; it is the value the re-randomisation step computed,
and no helper call of the run has the credential's `A` among the locations it writes. -/
theorem constructProof_APrime_value (P : Platform) (Z : Sizes) (credential : Credential)
    (s : ProofSession) :
    let drawn := constructProof_randomise P Z credential s
    let final := constructProof P Z credential s
    final.APrime
      = (credential.signature.A * credential.issuerKey.S ^ drawn.rA)
        % credential.issuerKey.n ∧
    final.APrime = (constructProof_APrime P credential drawn).APrime ∧
    (∀ call ∈ constructProof_calls P Z credential s, Loc.A ∉ written call) := by
  intro drawn final
  have hA : (constructProof_APrime P credential drawn).APrime
      = (credential.signature.A * credential.issuerKey.S ^ drawn.rA)
        % credential.issuerKey.n := by
    rw [constructProof_APrime_eq]
    show credential.issuerKey.S ^ drawn.rA % credential.issuerKey.n * credential.signature.A
      % credential.issuerKey.n = _
    rw [Nat.mod_mul_mod, Nat.mul_comm]
  have hfin : final.APrime = (constructProof_APrime P credential drawn).APrime := by
    show (constructProof_responses P Z credential (constructProof_challenge P Z
      (constructProof_ZTilde P credential (constructProof_APrime P credential drawn)))).APrime
      = _
    rw [(constructProof_responses_frame P Z credential _).2.2.1, constructProof_challenge_eq]
    exact (constructProof_ZTilde_frame P credential _).2.2.1
  refine ⟨hfin.trans hA, hfin, ?_⟩
  obtain ⟨m1, m2, x1, eH, d, vH, -, -, -, -, -, -, hfinal⟩ :=
    constructProof_eq P Z credential s
  unfold constructProof_calls
  rw [hfinal]
  simp only [List.append_assoc, List.drop_left]
  intro call hcall
  simp only [List.mem_append, List.mem_map, List.mem_flatMap, List.mem_cons,
    List.mem_singleton, List.not_mem_nil, or_false] at hcall
  rcases hcall with ⟨i, -, rfl⟩ | hcall | ⟨i, -, hcall⟩ | hcall | ⟨i, -, rfl⟩
  · simp [written]
  · rcases hcall with rfl | rfl | rfl | rfl | rfl | rfl | rfl | rfl <;> simp [written]
  · rcases hcall with rfl | rfl <;> simp [written]
  · rcases hcall with rfl | rfl | rfl | rfl <;> simp [written]
  · simp [written]

/-- C12: the challenge `constructProof` stores is the hash of four slices, in this
order: the context (`SIZE_H`), `A'` as the re-randomisation step computed it (`SIZE_N`),
the commitment accumulated in `buffer.number[0]` (`SIZE_N`) and the nonce
(`SIZE_STATZK`); this is the only hash call of the run, and a second run that hands the
same list to the hash agrees with this one on all four inputs. -/
theorem constructProof_challenge_input (P : Platform) (Z : Sizes) (credential : Credential)
    (s : ProofSession) :
    let rerandomised :=
      constructProof_APrime P credential (constructProof_randomise P Z credential s)
    let committed := constructProof_ZTilde P credential rerandomised
    let final := constructProof P Z credential s
    final.list = [(s.context, Z.SIZE_H), (rerandomised.APrime, Z.SIZE_N),
      (committed.number0, Z.SIZE_N), (s.nonce, Z.SIZE_STATZK)] ∧
    final.challenge = P.hash final.list ∧
    Call.compute_hash final.list ∈ constructProof_calls P Z credential s ∧
    (∀ l, Call.compute_hash l ∈ constructProof_calls P Z credential s → l = final.list) ∧
    (∀ (P2 : Platform) (credential2 : Credential) (s2 : ProofSession),
      (constructProof P2 Z credential2 s2).list = final.list →
        s2.context = s.context ∧
        (constructProof_APrime P2 credential2
          (constructProof_randomise P2 Z credential2 s2)).APrime = rerandomised.APrime ∧
        (constructProof_ZTilde P2 credential2 (constructProof_APrime P2 credential2
          (constructProof_randomise P2 Z credential2 s2))).number0 = committed.number0 ∧
        s2.nonce = s.nonce) := by
  intro rerandomised committed final
  have hlist : ∀ (P2 : Platform) (credential2 : Credential) (s2 : ProofSession),
      (constructProof P2 Z credential2 s2).list
        = [(s2.context, Z.SIZE_H),
          ((constructProof_APrime P2 credential2
            (constructProof_randomise P2 Z credential2 s2)).APrime, Z.SIZE_N),
          ((constructProof_ZTilde P2 credential2 (constructProof_APrime P2 credential2
            (constructProof_randomise P2 Z credential2 s2))).number0, Z.SIZE_N),
          (s2.nonce, Z.SIZE_STATZK)] := by
    intro P2 credential2 s2
    show (constructProof_responses P2 Z credential2 (constructProof_challenge P2 Z
      (constructProof_ZTilde P2 credential2 (constructProof_APrime P2 credential2
        (constructProof_randomise P2 Z credential2 s2))))).list = _
    rw [(constructProof_responses_frame P2 Z credential2 _).1, constructProof_challenge_eq]
    simp only
    rw [(constructProof_ZTilde_frame P2 credential2 _).1,
      (constructProof_ZTilde_frame P2 credential2 _).2.1,
      (constructProof_ZTilde_frame P2 credential2 _).2.2.1, constructProof_APrime_eq]
    simp only
    rw [(constructProof_randomise_frame P2 Z credential2 s2).1,
      (constructProof_randomise_frame P2 Z credential2 s2).2.1]
  have hchal : final.challenge = P.hash final.list := by
    show (constructProof_responses P Z credential (constructProof_challenge P Z
      committed)).challenge = P.hash (constructProof_responses P Z credential
        (constructProof_challenge P Z committed)).list
    rw [(constructProof_responses_frame P Z credential _).1,
      (constructProof_responses_frame P Z credential _).2.1, constructProof_challenge_eq]
  obtain ⟨m1, m2, x1, eH, d, vH, -, -, -, -, -, -, hfinal⟩ :=
    constructProof_eq P Z credential s
  refine ⟨hlist P credential s, hchal, ?_, ?_, ?_⟩
  · simp only [final, constructProof_calls]
    rw [hfinal]
    simp only [List.append_assoc, List.drop_left]
    simp
  · intro l hl
    simp only [final, constructProof_calls] at hl ⊢
    rw [hfinal] at hl ⊢
    simp only [List.append_assoc, List.drop_left] at hl
    simpa using hl
  · intro P2 credential2 s2 heq
    rw [hlist P2 credential2 s2, hlist P credential s] at heq
    simp only [List.cons.injEq, Prod.mk.injEq, and_true] at heq
    exact ⟨heq.1, heq.2.1, heq.2.2.1, heq.2.2.2⟩

/-! ## Theorems: `authentication_verifyCertificate`, the signed message -/

theorem exampleDecoder_advancesPastElement : advancesPastElement exampleDecoder := by
  intro cert offset
  simp only [exampleDecoder]
  refine ⟨by omega, by positivity, ?_⟩
  push_cast
  ring

theorem length_designated (cert : List Byte) (pointer : Nat) (bytes : Int)
    (h : (pointer : Int) + bytes ≤ cert.length) :
    (designated cert pointer bytes).length = bytes.toNat := by
  simp only [designated, List.length_take, List.length_drop]
  omega

theorem designated_getElem (cert : List Byte) (pointer : Nat) (bytes : Int) (j : Nat)
    (hlo : pointer ≤ j) (hhi : (j : Int) < pointer + bytes) :
    (designated cert pointer bytes)[j - pointer]? = cert[j]? := by
  simp only [designated]
  rw [List.getElem?_take, if_pos (by omega), List.getElem?_drop]
  congr 1
  omega

/-- C17: with a decoder that advances the offset past the decoded element and with the
three tags matching, the verifier is handed `body`, the start of the value of the outer
element, with `body_bytes`, the header and the value bytes of the `0x7F4E` element that
starts there, and the value pointer and length of the `0x5F37` element decoded right
behind it; a certificate with the same body start that differs in one of the body
bytes designates a different message. -/
theorem authentication_verifyCertificate_message {Key : Type}
    (ASN1_decode_tlv : Decoder) (RSA_PSS_verify : Verifier Key) (key : Key)
    (cert : List Byte) (hdec : advancesPastElement ASN1_decode_tlv)
    (h1 : (ASN1_decode_tlv cert 0).1.tag = 0x7F21)
    (h2 : (ASN1_decode_tlv cert (ASN1_decode_tlv cert 0).1.value).1.tag = 0x7F4E)
    (h3 : (ASN1_decode_tlv cert
      (ASN1_decode_tlv cert (ASN1_decode_tlv cert 0).1.value).2).1.tag = 0x5F37) :
    let body := (ASN1_decode_tlv cert 0).1.value
    let inner := (ASN1_decode_tlv cert body).1
    let body_bytes : Int := ((inner.value : Int) - (body : Int)) + inner.length
    let last := (ASN1_decode_tlv cert (ASN1_decode_tlv cert body).2).1
    authentication_verifyCertificate ASN1_decode_tlv RSA_PSS_verify key cert
      = (if RSA_PSS_verify key body_bytes body last.length last.value cert < 0 then
          Except.error StatusWord.SW_SECURITY_STATUS_NOT_SATISFIED
        else Except.ok body) ∧
    body ≤ inner.value ∧ 0 ≤ inner.length ∧
    ((ASN1_decode_tlv cert body).2 : Int) = (body : Int) + body_bytes ∧
    designated cert body body_bytes
      = (cert.drop body).take ((inner.value - body) + inner.length.toNat) ∧
    (∀ (cert2 : List Byte) (body_bytes2 : Int) (j : Nat),
      (body : Int) + body_bytes ≤ cert.length →
      (body : Int) + body_bytes2 ≤ cert2.length →
      body ≤ j → (j : Int) < body + body_bytes → cert[j]? ≠ cert2[j]? →
      designated cert body body_bytes ≠ designated cert2 body body_bytes2) := by
  intro body inner body_bytes last
  obtain ⟨hval, hlen, hoff⟩ := hdec cert body
  have hbb : ((ASN1_decode_tlv cert body).2 : Int) - (body : Int) = body_bytes := by
    simp only [body_bytes, inner]
    rw [hoff]
    ring
  refine ⟨?_, hval, hlen, by rw [← hbb]; ring, ?_, ?_⟩
  · simp only [authentication_verifyCertificate, h1, h2, h3, body, last] at hbb ⊢
    simp [hbb]
  · have hnat : ∀ (b v : Nat) (len : Int), b ≤ v → 0 ≤ len →
        (((v : Int) - (b : Int)) + len).toNat = (v - b) + len.toNat := by
      intro b v len hb hl
      omega
    simp only [designated, body_bytes]
    rw [hnat body inner.value inner.length hval hlen]
  · intro cert2 body_bytes2 j hin hin2 hlo hhi hne heq
    have hl1 := length_designated cert body body_bytes hin
    have hl2 := length_designated cert2 body body_bytes2 hin2
    rw [heq, hl2] at hl1
    have hbytes : body_bytes2 = body_bytes := by
      have hpos : 0 < body_bytes := by omega
      omega
    have e1 := designated_getElem cert body body_bytes j hlo hhi
    have e2 := designated_getElem cert2 body body_bytes2 j hlo (by rw [hbytes]; exact hhi)
    rw [heq, e2] at e1
    exact hne e1.symm

theorem authentication_verifyCertificate_message_witness :
    designated exampleCertificate 3 5 ≠ designated tamperedCertificate 3 5 :=
  (authentication_verifyCertificate_message exampleDecoder rejectingVerifier ()
    exampleCertificate exampleDecoder_advancesPastElement (by decide) (by decide)
    (by decide)).2.2.2.2.2 tamperedCertificate 5 7 (by decide) (by decide) (by decide)
    (by decide) (by decide)


/-! ## Theorems: `crypto_compute_vPrime`, borrow and determinism -/

theorem toBytes_ofBytes (l : List Byte) : toBytes l.length (ofBytes l) = l := by
  induction l using List.reverseRecOn with
  | nil => rfl
  | append_singleton rest b ih =>
    rw [List.length_append, List.length_singleton, ofBytes_append, ofBytes_singleton,
      List.length_singleton, pow_one, toBytes]
    have hb : b.val < 256 := b.isLt
    have hdiv : (ofBytes rest * 256 + b.val) / 256 = ofBytes rest := by omega
    have hmod : (ofBytes rest * 256 + b.val) % 256 = b.val := by omega
    rw [hdiv, ih]
    congr 2
    exact Fin.ext hmod

theorem eq_of_ofBytes_eq (a b : List Byte) (hlen : a.length = b.length)
    (h : ofBytes a = ofBytes b) : a = b := by
  rw [← toBytes_ofBytes a, ← toBytes_ofBytes b, hlen, h]

theorem ofBytes_readBlock_low (mem : List Byte) (k l : Nat) (h : k + l ≤ mem.length) :
    ofBytes (readBlock mem k l) = ofBytes (readBlock mem 0 (k + l)) % 256 ^ l := by
  have hsplit := ofBytes_readBlock_split mem 0 k l (by omega)
  rw [Nat.zero_add] at hsplit
  have hlt : ofBytes (readBlock mem k l) < 256 ^ l := by
    have := ofBytes_lt (readBlock mem k l)
    rw [length_readBlock _ _ _ h] at this
    exact this
  rw [hsplit, Nat.mul_add_mod_of_lt hlt]

theorem ofBytes_readBlock_high (mem : List Byte) (k l : Nat) (h : k + l ≤ mem.length) :
    ofBytes (readBlock mem 0 k) = ofBytes (readBlock mem 0 (k + l)) / 256 ^ l := by
  have hsplit := ofBytes_readBlock_split mem 0 k l (by omega)
  rw [Nat.zero_add] at hsplit
  have hlt : ofBytes (readBlock mem k l) < 256 ^ l := by
    have := ofBytes_lt (readBlock mem k l)
    rw [length_readBlock _ _ _ h] at this
    exact this
  have hpos : 0 < 256 ^ l := pow_pos (by decide) _
  rw [hsplit, Nat.add_comm, Nat.add_mul_div_right _ _ hpos, Nat.div_eq_of_lt hlt,
    Nat.zero_add]

theorem crypto_compute_vPrime_subtract_eq (Z : Sizes) (v : List Byte) (m : Machine) :
    crypto_compute_vPrime_subtract Z v m
      = SUBN (crypto_compute_vPrime_borrow Z v m) (Z.SIZE_V / 2) 0
          (readBlock v 0 (Z.SIZE_V / 2))
          (readBlock (crypto_compute_vPrime_borrow Z v m).buffer 0 (Z.SIZE_V / 2)) := rfl

/-- The state before the last `SUBN` of `crypto_compute_vPrime`, in terms of the value
`b` the `SIZE_V` bytes of the buffer held when the subtraction began. -/
theorem crypto_compute_vPrime_borrow_value (Z : Sizes) (v : List Byte) (m : Machine)
    (hv : v.length = Z.SIZE_V) (hodd : Z.SIZE_V % 2 = 1)
    (hbuf : Z.SIZE_V ≤ m.buffer.length) :
    (crypto_compute_vPrime_borrow Z v m).flag
      = (if ofBytes v % 256 ^ (Z.SIZE_V / 2 + 1)
            < ofBytes (readBlock m.buffer 0 Z.SIZE_V) % 256 ^ (Z.SIZE_V / 2 + 1)
        then 1 else 0) ∧
    ofBytes (readBlock (crypto_compute_vPrime_borrow Z v m).buffer 0 (Z.SIZE_V / 2))
      = (if ofBytes v % 256 ^ (Z.SIZE_V / 2 + 1)
            < ofBytes (readBlock m.buffer 0 Z.SIZE_V) % 256 ^ (Z.SIZE_V / 2 + 1)
        then (ofBytes (readBlock m.buffer 0 Z.SIZE_V) / 256 ^ (Z.SIZE_V / 2 + 1) + 1)
          % 256 ^ (Z.SIZE_V / 2)
        else ofBytes (readBlock m.buffer 0 Z.SIZE_V) / 256 ^ (Z.SIZE_V / 2 + 1)) ∧
    (crypto_compute_vPrime_borrow Z v m).stack = m.stack ∧
    (crypto_compute_vPrime_borrow Z v m).buffer.length = m.buffer.length := by
  have hV : Z.SIZE_V = Z.SIZE_V / 2 + (Z.SIZE_V / 2 + 1) := by omega
  generalize hk : Z.SIZE_V / 2 = k at hV
  have hvread : readBlock v 0 Z.SIZE_V = v := by simp [readBlock, ← hv]
  have hVL : ofBytes (readBlock v k (k + 1)) = ofBytes v % 256 ^ (k + 1) := by
    have := ofBytes_readBlock_low v k (k + 1) (by rw [hv]; omega)
    rw [← hV, hvread] at this
    exact this
  have hBL : ofBytes (readBlock m.buffer k (k + 1))
      = ofBytes (readBlock m.buffer 0 Z.SIZE_V) % 256 ^ (k + 1) := by
    have := ofBytes_readBlock_low m.buffer k (k + 1) (by omega)
    rw [← hV] at this
    exact this
  have hBH : ofBytes (readBlock m.buffer 0 k)
      = ofBytes (readBlock m.buffer 0 Z.SIZE_V) / 256 ^ (k + 1) := by
    have := ofBytes_readBlock_high m.buffer k (k + 1) (by omega)
    rw [← hV] at this
    exact this
  rw [← hVL, ← hBL, ← hBH]
  generalize hb4 : writeBlock m.buffer k (toBytes (k + 1)
    (ofBytes (readBlock v k (k + 1)) + 256 ^ (k + 1) - ofBytes (readBlock m.buffer k (k + 1))))
    = b4
  have hlowlen : (toBytes (k + 1) (ofBytes (readBlock v k (k + 1)) + 256 ^ (k + 1)
      - ofBytes (readBlock m.buffer k (k + 1)))).length = k + 1 := length_toBytes _ _
  have hb4high : readBlock b4 0 k = readBlock m.buffer 0 k := by
    rw [← hb4]; exact readBlock_writeBlock_before _ _ _ _ _ (by omega) (by omega)
  have hb4len : b4.length = m.buffer.length := by
    rw [← hb4]; exact length_writeBlock _ _ _ (by rw [hlowlen]; omega)
  have hinclen : (toBytes k (ofBytes (readBlock b4 0 k) + 1)).length = k := length_toBytes _ _
  by_cases hC : ofBytes (readBlock v k (k + 1)) < ofBytes (readBlock m.buffer k (k + 1))
  · have hstate : crypto_compute_vPrime_borrow Z v m
        = ⟨writeBlock b4 0 (toBytes k (ofBytes (readBlock b4 0 k) + 1)), m.stack, true, 1⟩ := by
      simp [crypto_compute_vPrime_borrow, SUBN, CFlag, INCN, hk, hb4, hC]
    rw [hstate, if_pos hC, if_pos hC]
    refine ⟨rfl, ?_, rfl, ?_⟩
    · have := readBlock_writeBlock_same b4 0 (toBytes k (ofBytes (readBlock b4 0 k) + 1))
        (Nat.zero_le _)
      rw [hinclen] at this
      simp only
      rw [this, ofBytes_toBytes, hb4high]
    · simp only
      rw [length_writeBlock _ _ _ (by rw [hinclen, hb4len]; omega), hb4len]
  · have hstate : crypto_compute_vPrime_borrow Z v m = ⟨b4, m.stack, false, 0⟩ := by
      simp [crypto_compute_vPrime_borrow, SUBN, CFlag, INCN, hk, hb4, hC]
    rw [hstate, if_neg hC, if_neg hC]
    exact ⟨rfl, by simp only; rw [hb4high], rfl, hb4len⟩


/-- The `SIZE_V` bytes `crypto_compute_vPrime` leaves, as an integer. -/
theorem crypto_compute_vPrime_int (Z : Sizes) (e rA v : List Byte) (m : Machine)
    (he : e.length = Z.SIZE_E) (hrA : rA.length = Z.SIZE_R_A) (hv : v.length = Z.SIZE_V)
    (heven : Z.SIZE_R_A % 2 = 0) (hE : Z.SIZE_E ≤ Z.SIZE_R_A / 2)
    (hRAV : Z.SIZE_R_A ≤ Z.SIZE_V) (hL : Z.SIZE_V - Z.SIZE_R_A / 2 ≤ Z.SIZE_R_A)
    (hodd : Z.SIZE_V % 2 = 1) (hbuf : Z.SIZE_V ≤ m.buffer.length) :
    ((ofBytes ((crypto_compute_vPrime Z e rA v m).buffer.take Z.SIZE_V) : Nat) : Int)
      = ((ofBytes v : Nat) - ((ofBytes e * ofBytes rA) % 256 ^ Z.SIZE_V : Nat) : Int)
        % ((256 ^ Z.SIZE_V : Nat) : Int) := by
  obtain ⟨hlen, hval, -, -⟩ := crypto_compute_vPrime_product_value Z e rA m he hrA heven hE
    hRAV hL hbuf
  have hsub := crypto_compute_vPrime_subtract_value Z v
    (crypto_compute_vPrime_product Z e rA m) hv hodd (by rw [hlen]; exact hbuf)
  rw [hval] at hsub
  exact hsub

theorem length_take_crypto_compute_vPrime (Z : Sizes) (e rA v : List Byte) (m : Machine)
    (he : e.length = Z.SIZE_E) (hrA : rA.length = Z.SIZE_R_A) (hv : v.length = Z.SIZE_V)
    (heven : Z.SIZE_R_A % 2 = 0) (hE : Z.SIZE_E ≤ Z.SIZE_R_A / 2)
    (hRAV : Z.SIZE_R_A ≤ Z.SIZE_V) (hL : Z.SIZE_V - Z.SIZE_R_A / 2 ≤ Z.SIZE_R_A)
    (hodd : Z.SIZE_V % 2 = 1) (hbuf : Z.SIZE_V ≤ m.buffer.length) :
    ((crypto_compute_vPrime Z e rA v m).buffer.take Z.SIZE_V).length = Z.SIZE_V ∧
    (crypto_compute_vPrime Z e rA v m).stack = m.stack := by
  obtain ⟨hlen, -, hstack, -⟩ := crypto_compute_vPrime_product_value Z e rA m he hrA heven
    hE hRAV hL hbuf
  obtain ⟨-, -, hbstack, hblen⟩ := crypto_compute_vPrime_borrow_value Z v
    (crypto_compute_vPrime_product Z e rA m) hv hodd (by rw [hlen]; exact hbuf)
  have hupper : Z.SIZE_V ≤ (crypto_compute_vPrime_borrow Z v
      (crypto_compute_vPrime_product Z e rA m)).buffer.length := by
    rw [hblen, hlen]; exact hbuf
  constructor
  · show (List.take Z.SIZE_V (crypto_compute_vPrime_subtract Z v
      (crypto_compute_vPrime_product Z e rA m)).buffer).length = Z.SIZE_V
    rw [crypto_compute_vPrime_subtract_eq]
    simp only [SUBN, List.length_take]
    rw [length_writeBlock _ _ _ (by rw [length_toBytes]; omega)]
    omega
  · show (crypto_compute_vPrime_subtract Z v
      (crypto_compute_vPrime_product Z e rA m)).stack = m.stack
    rw [crypto_compute_vPrime_subtract_eq]
    simp only [SUBN]
    rw [hbstack, hstack]

/-- C16: in `crypto_compute_vPrime`, once the product `e * rA` stands in the buffer,
`flag` is nonzero exactly when the low `SIZE_V / 2 + 1` bytes of `v` are smaller than
those of the product; the upper `SIZE_V / 2` bytes of the buffer that the last `SUBN`
subtracts are then the upper bytes of the product plus one (modulo their width), and
the upper bytes of the product themselves otherwise. -/
theorem crypto_compute_vPrime_borrow_iff (Z : Sizes) (e rA v : List Byte) (m : Machine)
    (he : e.length = Z.SIZE_E) (hrA : rA.length = Z.SIZE_R_A) (hv : v.length = Z.SIZE_V)
    (heven : Z.SIZE_R_A % 2 = 0) (hE : Z.SIZE_E ≤ Z.SIZE_R_A / 2)
    (hRAV : Z.SIZE_R_A ≤ Z.SIZE_V) (hL : Z.SIZE_V - Z.SIZE_R_A / 2 ≤ Z.SIZE_R_A)
    (hodd : Z.SIZE_V % 2 = 1) (hbuf : Z.SIZE_V ≤ m.buffer.length) :
    let product := crypto_compute_vPrime_product Z e rA m
    let upper := crypto_compute_vPrime_borrow Z v product
    ofBytes (readBlock product.buffer 0 Z.SIZE_V)
      = (ofBytes e * ofBytes rA) % 256 ^ Z.SIZE_V ∧
    (upper.flag ≠ 0 ↔
      ofBytes v % 256 ^ (Z.SIZE_V / 2 + 1)
        < (ofBytes e * ofBytes rA) % 256 ^ (Z.SIZE_V / 2 + 1)) ∧
    ofBytes (readBlock upper.buffer 0 (Z.SIZE_V / 2))
      = (if ofBytes v % 256 ^ (Z.SIZE_V / 2 + 1)
            < (ofBytes e * ofBytes rA) % 256 ^ (Z.SIZE_V / 2 + 1)
        then ((ofBytes e * ofBytes rA) % 256 ^ Z.SIZE_V / 256 ^ (Z.SIZE_V / 2 + 1) + 1)
          % 256 ^ (Z.SIZE_V / 2)
        else (ofBytes e * ofBytes rA) % 256 ^ Z.SIZE_V / 256 ^ (Z.SIZE_V / 2 + 1)) ∧
    crypto_compute_vPrime Z e rA v m
      = SUBN upper (Z.SIZE_V / 2) 0 (readBlock v 0 (Z.SIZE_V / 2))
          (readBlock upper.buffer 0 (Z.SIZE_V / 2)) := by
  intro product upper
  obtain ⟨hlen, hval, -, -⟩ := crypto_compute_vPrime_product_value Z e rA m he hrA heven hE
    hRAV hL hbuf
  obtain ⟨hflag, hhigh, -, -⟩ := crypto_compute_vPrime_borrow_value Z v
    (crypto_compute_vPrime_product Z e rA m) hv hodd (by rw [hlen]; exact hbuf)
  have hlow : (ofBytes e * ofBytes rA) % 256 ^ Z.SIZE_V % 256 ^ (Z.SIZE_V / 2 + 1)
      = (ofBytes e * ofBytes rA) % 256 ^ (Z.SIZE_V / 2 + 1) :=
    Nat.mod_mod_of_dvd _ (pow_dvd_pow 256 (by omega))
  rw [hval, hlow] at hflag hhigh
  refine ⟨hval, ?_, hhigh, rfl⟩
  show (crypto_compute_vPrime_borrow Z v (crypto_compute_vPrime_product Z e rA m)).flag ≠ 0
    ↔ _
  rw [hflag]
  split <;> simp_all

theorem crypto_compute_vPrime_borrow_iff_witness :
    (crypto_compute_vPrime_borrow exampleSizes [0x50, 0x01, 0x02]
      (crypto_compute_vPrime_product exampleSizes [7] [1, 200]
        ⟨[9, 9, 9, 9], [5, 5], false, 0⟩)).flag ≠ 0
    ↔ ofBytes [0x50, 0x01, 0x02] % 256 ^ (exampleSizes.SIZE_V / 2 + 1)
        < (ofBytes [7] * ofBytes [1, 200]) % 256 ^ (exampleSizes.SIZE_V / 2 + 1) :=
  (crypto_compute_vPrime_borrow_iff exampleSizes [7] [1, 200] [0x50, 0x01, 0x02]
    ⟨[9, 9, 9, 9], [5, 5], false, 0⟩ rfl rfl rfl (by decide) (by decide) (by decide)
    (by decide) (by decide) (by decide)).2.1

/-- C19: for sizes that fit the byte layout of `crypto_compute_vPrime`, two runs on the
same `e`, `rA` and `v` leave the same `SIZE_V` bytes in the buffer, whatever the buffer
and the stack held before each run; each run leaves the stack as it found it. -/
theorem crypto_compute_vPrime_deterministic (Z : Sizes) (e rA v : List Byte)
    (m1 m2 : Machine)
    (he : e.length = Z.SIZE_E) (hrA : rA.length = Z.SIZE_R_A) (hv : v.length = Z.SIZE_V)
    (heven : Z.SIZE_R_A % 2 = 0) (hE : Z.SIZE_E ≤ Z.SIZE_R_A / 2)
    (hRAV : Z.SIZE_R_A ≤ Z.SIZE_V) (hL : Z.SIZE_V - Z.SIZE_R_A / 2 ≤ Z.SIZE_R_A)
    (hodd : Z.SIZE_V % 2 = 1) (hbuf1 : Z.SIZE_V ≤ m1.buffer.length)
    (hbuf2 : Z.SIZE_V ≤ m2.buffer.length) :
    (crypto_compute_vPrime Z e rA v m1).buffer.take Z.SIZE_V
      = (crypto_compute_vPrime Z e rA v m2).buffer.take Z.SIZE_V ∧
    (crypto_compute_vPrime Z e rA v m1).stack = m1.stack ∧
    (crypto_compute_vPrime Z e rA v m2).stack = m2.stack := by
  have h1 := crypto_compute_vPrime_int Z e rA v m1 he hrA hv heven hE hRAV hL hodd hbuf1
  have h2 := crypto_compute_vPrime_int Z e rA v m2 he hrA hv heven hE hRAV hL hodd hbuf2
  obtain ⟨hl1, hs1⟩ := length_take_crypto_compute_vPrime Z e rA v m1 he hrA hv heven hE
    hRAV hL hodd hbuf1
  obtain ⟨hl2, hs2⟩ := length_take_crypto_compute_vPrime Z e rA v m2 he hrA hv heven hE
    hRAV hL hodd hbuf2
  refine ⟨?_, hs1, hs2⟩
  apply eq_of_ofBytes_eq _ _ (by rw [hl1, hl2])
  have : ((ofBytes ((crypto_compute_vPrime Z e rA v m1).buffer.take Z.SIZE_V) : Nat) : Int)
      = ((ofBytes ((crypto_compute_vPrime Z e rA v m2).buffer.take Z.SIZE_V) : Nat) : Int) := by
    rw [h1, h2]
  exact_mod_cast this

theorem crypto_compute_vPrime_deterministic_witness :
    (crypto_compute_vPrime exampleSizes [7] [1, 200] [0x50, 0x01, 0x02]
      ⟨[9, 9, 9, 9], [5, 5], false, 0⟩).buffer.take exampleSizes.SIZE_V
    = (crypto_compute_vPrime exampleSizes [7] [1, 200] [0x50, 0x01, 0x02]
      ⟨[0, 255, 17], [], true, 1⟩).buffer.take exampleSizes.SIZE_V :=
  (crypto_compute_vPrime_deterministic exampleSizes [7] [1, 200] [0x50, 0x01, 0x02]
    ⟨[9, 9, 9, 9], [5, 5], false, 0⟩ ⟨[0, 255, 17], [], true, 1⟩ rfl rfl rfl (by decide)
    (by decide) (by decide) (by decide) (by decide) (by decide) (by decide)).1


theorem div_succ_le_of_mod_lt (p v B : Nat) (hle : p ≤ v) (hmod : v % B < p % B) :
    p / B + 1 ≤ v / B := by
  by_contra hnot
  have h1 : v / B ≤ p / B := by omega
  have h2 : B * (v / B) ≤ B * (p / B) := Nat.mul_le_mul_left B h1
  have hv := Nat.div_add_mod v B
  have hp := Nat.div_add_mod p B
  omega

/-- C18: when the bit lengths leave the margin (`marginGuarantee`), for `e` below
`2^LENGTH_E`, `rA` below `2^(LENGTH_R_A - 7)`, as `constructProof` draws it, and `v`
with the top bit of its `LENGTH_V` bits set, `e * rA <= v`; the last `SUBN` of
`crypto_compute_vPrime` then leaves the carry bit clear and the `SIZE_V` bytes of the
buffer hold the integer `v - e * rA`. -/
theorem crypto_compute_vPrime_no_underflow (Z : Sizes) (e rA v : List Byte) (m : Machine)
    (he : e.length = Z.SIZE_E) (hrA : rA.length = Z.SIZE_R_A) (hv : v.length = Z.SIZE_V)
    (heven : Z.SIZE_R_A % 2 = 0) (hE : Z.SIZE_E ≤ Z.SIZE_R_A / 2)
    (hRAV : Z.SIZE_R_A ≤ Z.SIZE_V) (hL : Z.SIZE_V - Z.SIZE_R_A / 2 ≤ Z.SIZE_R_A)
    (hodd : Z.SIZE_V % 2 = 1) (hbuf : Z.SIZE_V ≤ m.buffer.length)
    (hmargin : marginGuarantee Z)
    (hebits : ofBytes e < 2 ^ Z.LENGTH_E)
    (hrAbits : ofBytes rA < 2 ^ (Z.LENGTH_R_A - 7))
    (hvbits : 2 ^ (Z.LENGTH_V - 1) ≤ ofBytes v) :
    ofBytes e * ofBytes rA ≤ ofBytes v ∧
    (crypto_compute_vPrime Z e rA v m).C = false ∧
    ofBytes ((crypto_compute_vPrime Z e rA v m).buffer.take Z.SIZE_V)
      = ofBytes v - ofBytes e * ofBytes rA ∧
    (∀ (P : Platform) (credential : Credential) (s : ProofSession),
      (constructProof_randomise P Z credential s).rA < 2 ^ (Z.LENGTH_R_A - 7)) := by
  -- the product stays below the top bit of v
  have hle : ofBytes e * ofBytes rA ≤ ofBytes v := by
    have hprod : ofBytes e * ofBytes rA < 2 ^ Z.LENGTH_E * 2 ^ (Z.LENGTH_R_A - 7) :=
      Nat.mul_lt_mul'' hebits hrAbits
    rw [← pow_add] at hprod
    have hpow : 2 ^ (Z.LENGTH_E + (Z.LENGTH_R_A - 7)) ≤ 2 ^ (Z.LENGTH_V - 1) := by
      apply Nat.pow_le_pow_right (by decide)
      unfold marginGuarantee at hmargin
      omega
    omega
  have hvlt : ofBytes v < 256 ^ Z.SIZE_V := by
    have := ofBytes_lt v
    rw [hv] at this
    exact this
  have hpmod : (ofBytes e * ofBytes rA) % 256 ^ Z.SIZE_V = ofBytes e * ofBytes rA :=
    Nat.mod_eq_of_lt (lt_of_le_of_lt hle hvlt)
  refine ⟨hle, ?_, ?_, ?_⟩
  · -- no borrow out of the upper half
    obtain ⟨hlen, hval, -, -⟩ := crypto_compute_vPrime_product_value Z e rA m he hrA heven
      hE hRAV hL hbuf
    obtain ⟨-, hhigh, -, -⟩ := crypto_compute_vPrime_borrow_value Z v
      (crypto_compute_vPrime_product Z e rA m) hv hodd (by rw [hlen]; exact hbuf)
    rw [hval, hpmod] at hhigh
    have hvread : readBlock v 0 Z.SIZE_V = v := by simp [readBlock, ← hv]
    have hVH : ofBytes (readBlock v 0 (Z.SIZE_V / 2))
        = ofBytes v / 256 ^ (Z.SIZE_V / 2 + 1) := by
      have := ofBytes_readBlock_high v (Z.SIZE_V / 2) (Z.SIZE_V / 2 + 1) (by rw [hv]; omega)
      rw [show Z.SIZE_V / 2 + (Z.SIZE_V / 2 + 1) = Z.SIZE_V by omega, hvread] at this
      exact this
    show (crypto_compute_vPrime_subtract Z v (crypto_compute_vPrime_product Z e rA m)).C
      = false
    rw [crypto_compute_vPrime_subtract_eq]
    simp only [SUBN, decide_eq_false_iff_not, not_lt]
    rw [hVH, hhigh]
    split
    · rename_i hunder
      exact le_trans (Nat.mod_le _ _) (div_succ_le_of_mod_lt _ _ _ hle hunder)
    · exact Nat.div_le_div_right hle
  · -- the exact difference
    have hint := crypto_compute_vPrime_int Z e rA v m he hrA hv heven hE hRAV hL hodd hbuf
    rw [hpmod] at hint
    have hcast : ((ofBytes v : Nat) : Int) - ((ofBytes e * ofBytes rA : Nat) : Int)
        = ((ofBytes v - ofBytes e * ofBytes rA : Nat) : Int) := by
      rw [Nat.cast_sub hle]
    rw [hcast, ← Int.natCast_mod] at hint
    have hnat : ofBytes ((crypto_compute_vPrime Z e rA v m).buffer.take Z.SIZE_V)
        = (ofBytes v - ofBytes e * ofBytes rA) % 256 ^ Z.SIZE_V := by
      exact_mod_cast hint
    rw [hnat]
    exact Nat.mod_eq_of_lt (by omega)
  · intro P credential s
    rw [(constructProof_randomise_frame P Z credential s).2.2]
    exact Nat.mod_lt _ (pow_pos (by decide) _)

theorem crypto_compute_vPrime_no_underflow_witness :
    ofBytes [7] * ofBytes [1, 200] ≤ ofBytes [0x90, 0x01, 0x02] ∧
    (crypto_compute_vPrime exampleSizes [7] [1, 200] [0x90, 0x01, 0x02]
      ⟨[9, 9, 9, 9], [5, 5], false, 0⟩).C = false :=
  ⟨(crypto_compute_vPrime_no_underflow exampleSizes [7] [1, 200] [0x90, 0x01, 0x02]
      ⟨[9, 9, 9, 9], [5, 5], false, 0⟩ rfl rfl rfl (by decide) (by decide) (by decide)
      (by decide) (by decide) (by decide) (by unfold marginGuarantee; decide) (by decide)
      (by decide) (by decide)).1,
    by decide⟩


end IrmaCard
